import Mathlib

/-!
ThreadedMerge: a shallow embedding of `threadedmerge.cpp`

The file models the natural merge sort `sortMerge` and the orchestration routine
`threadedSort` of `src/threadedmerge.cpp`.

Modelling conventions.

* Elements are `Int` (the program instantiates the template at `int`; only comparisons
  are performed on elements).
* Indices (`iFirstBegin`, `iFirstMax`, ...) are `Nat`; the model assumes
  `numItems + 2` fits the machine `int`, so no index arithmetic wraps.
* A buffer of `numItems` cells is a `List Int` of that length.  The run scan of
  `sortMerge` reads `source[iMax + 1]` before it tests `iMax < numItems`, so it reads
  cells past the buffer.  Those reads are modelled by a function `beyond : Nat → Int`
  giving what memory holds after the last cell (`beyond k` is cell `numItems + k`).
* `while (true)` has no bound, so the outer loop takes a fuel argument and answers
  `Outcome.running` when the fuel is spent.  Inner loops are bounded; they take fuel
  too and stop with `Stop.spent` should it run out.
* `assert` is compiled in (no `NDEBUG`): a failed assertion stops the call with
  `Stop.assertFailed`.  A store outside the destination buffer stops it with
  `Stop.wildStore`, the declaration of an array of negative length with
  `Stop.negativeLength`.
* `threadedSort` is modelled sequentially: the thread of each piece runs to completion
  where it is spawned, then the whole array is sorted.
* `scanReads` logs the cells the scan reads, `mergeLoopStores`, `firstTailStores`,
  `secondTailStores`, `mergeRunsStores` and `passStores` log the stores into `dest` as
  pairs (destination index, source index); each follows the control flow of the loop it
  logs.
* `main` receives the values `atoi` gives for its arguments and the values `rand()`
  gives; printing is left out.
-/

namespace ThreadedMerge

/-- Why a run of the model stops short of the code's own control flow: a failed
`assert`, a store outside the destination buffer, spent fuel in a bounded loop, or an
array declared with a negative length (line 80, undefined behaviour). -/
inductive Stop where
  | assertFailed
  | wildStore
  | spent
  | negativeLength
deriving DecidableEq, Repr

/-- Result of a bounded inner loop. -/
inductive Loop (α : Type) where
  | ok (a : α)
  | stop (why : Stop)
deriving DecidableEq, Repr

/-- Result of a call of `sortMerge` or `threadedSort`: it returned with the caller's
array as given, it threw `msg`, it stopped, or the `while (true)` loop is still
running when the fuel is spent. -/
inductive Outcome where
  | returned (array : List Int)
  | thrown (msg : String) (array : List Int)
  | stopped (why : Stop)
  | running
deriving DecidableEq, Repr

/-- The message thrown at line 159. -/
def allocMessage : String := "ERROR: Could not allocate a new buffer for the merge sort"

/-- Cell `i` of a buffer: inside the buffer its cell, past the end what memory holds there. -/
def readCell (cells : List Int) (beyond : Nat → Int) (i : Nat) : Int :=
  match cells.get? i with
  | some v => v
  | none => beyond (i - cells.length)

/-- The scan loop of lines 178-179 and 184-186:
`while (!(source[iMax] > source[iMax + 1]) && iMax < numItems) ++iMax;` -/
def scanLoop (source : Nat → Int) (numItems : Nat) : Nat → Nat → Loop Nat
  | 0, _ => Loop.stop Stop.spent
  | fuel + 1, iMax =>
    if !(decide (source iMax > source (iMax + 1))) && decide (iMax < numItems) then
      scanLoop source numItems fuel (iMax + 1)
    else Loop.ok iMax

/-- Indices of `source` read by the scan loop, in order: each evaluation of the loop
condition reads `source[iMax]` and `source[iMax + 1]` before it tests `iMax < numItems`. -/
def scanReads (source : Nat → Int) (numItems : Nat) : Nat → Nat → List Nat
  | 0, _ => []
  | fuel + 1, iMax =>
    iMax :: (iMax + 1) ::
      (if !(decide (source iMax > source (iMax + 1))) && decide (iMax < numItems) then
        scanReads source numItems fuel (iMax + 1)
      else [])

/-- Indices and destination buffer during the merge of two runs (lines 213-253). -/
structure MergeState where
  iFirstBegin : Nat
  iSecondBegin : Nat
  iDest : Nat
  dest : List Int
deriving DecidableEq, Repr

/-- The two-run merge loop of lines 215-233. -/
def mergeLoop (source : Nat → Int) (numItems iFirstMax iSecondMax : Nat) :
    Nat → MergeState → Loop MergeState
  | 0, _ => Loop.stop Stop.spent
  | fuel + 1, s =>
    if s.iFirstBegin < iFirstMax ∧ s.iSecondBegin < iSecondMax
        ∧ s.iFirstBegin < numItems ∧ s.iSecondBegin < numItems then
      if iFirstMax < numItems ∧ s.iSecondBegin < numItems then
        if s.iDest < s.dest.length then
          if source s.iFirstBegin > source s.iSecondBegin then
            mergeLoop source numItems iFirstMax iSecondMax fuel
              { s with dest := s.dest.set s.iDest (source s.iSecondBegin),
                       iSecondBegin := s.iSecondBegin + 1, iDest := s.iDest + 1 }
          else
            mergeLoop source numItems iFirstMax iSecondMax fuel
              { s with dest := s.dest.set s.iDest (source s.iFirstBegin),
                       iFirstBegin := s.iFirstBegin + 1, iDest := s.iDest + 1 }
        else Loop.stop Stop.wildStore
      else Loop.stop Stop.assertFailed
    else Loop.ok s

/-- The loop of lines 236-244 copying what is left of the first run. -/
def firstTail (source : Nat → Int) (numItems iFirstMax : Nat) :
    Nat → MergeState → Loop MergeState
  | 0, _ => Loop.stop Stop.spent
  | fuel + 1, s =>
    if s.iFirstBegin < iFirstMax ∧ s.iFirstBegin < numItems then
      if s.iFirstBegin < numItems ∧ s.iDest < numItems then
        if s.iDest < s.dest.length then
          firstTail source numItems iFirstMax fuel
            { s with dest := s.dest.set s.iDest (source s.iFirstBegin),
                     iFirstBegin := s.iFirstBegin + 1, iDest := s.iDest + 1 }
        else Loop.stop Stop.wildStore
      else Loop.stop Stop.assertFailed
    else Loop.ok s

/-- The loop of lines 245-253 copying what is left of the second run. -/
def secondTail (source : Nat → Int) (numItems iSecondMax : Nat) :
    Nat → MergeState → Loop MergeState
  | 0, _ => Loop.stop Stop.spent
  | fuel + 1, s =>
    if s.iSecondBegin < iSecondMax ∧ s.iSecondBegin < numItems then
      if s.iSecondBegin < numItems ∧ s.iDest < numItems then
        if s.iDest < s.dest.length then
          secondTail source numItems iSecondMax fuel
            { s with dest := s.dest.set s.iDest (source s.iSecondBegin),
                     iSecondBegin := s.iSecondBegin + 1, iDest := s.iDest + 1 }
        else Loop.stop Stop.wildStore
      else Loop.stop Stop.assertFailed
    else Loop.ok s

/-- The merge section, lines 213-253: `iDest = iFirstBegin`, then the three loops. -/
def mergeRuns (source : Nat → Int) (numItems iFirstBegin iFirstMax iSecondMax : Nat)
    (dest : List Int) : Loop MergeState :=
  match mergeLoop source numItems iFirstMax iSecondMax (2 * numItems + 1)
      { iFirstBegin := iFirstBegin, iSecondBegin := iFirstMax, iDest := iFirstBegin,
        dest := dest } with
  | Loop.ok s₁ =>
    match firstTail source numItems iFirstMax (numItems + 1) s₁ with
    | Loop.ok s₂ => secondTail source numItems iSecondMax (numItems + 1) s₂
    | Loop.stop why => Loop.stop why
  | Loop.stop why => Loop.stop why

/-- How one full pass (the loop of lines 172-258) ends: through the exit condition of
line 190, or with `iFirstBegin >= numItems` and the destination as written. -/
inductive PassEnd where
  | exit
  | swapped (dest : List Int)
  | stop (why : Stop)
deriving DecidableEq, Repr

/-- The loop of lines 172-258, `while (iFirstBegin < numItems)`: find two runs, leave
through the exit condition or merge them into `dest`, go on from `iSecondMax`. -/
def passLoop (source : Nat → Int) (numItems : Nat) : Nat → Nat → List Int → PassEnd
  | 0, _, _ => PassEnd.stop Stop.spent
  | fuel + 1, iFirstBegin, dest =>
    if iFirstBegin < numItems then
      match scanLoop source numItems (numItems + 2) iFirstBegin with
      | Loop.ok m₁ =>
        let iFirstMax := m₁ + 1
        match scanLoop source numItems (numItems + 2) iFirstMax with
        | Loop.ok m₂ =>
          let iSecondMax := m₂ + 1
          if iFirstBegin = 0 ∧ iFirstMax = numItems then PassEnd.exit
          else
            match mergeRuns source numItems iFirstBegin iFirstMax iSecondMax dest with
            | Loop.ok s => passLoop source numItems fuel iSecondMax s.dest
            | Loop.stop why => PassEnd.stop why
        | Loop.stop why => PassEnd.stop why
      | Loop.stop why => PassEnd.stop why
    else PassEnd.swapped dest

/-- The copy loop of lines 200-201, `for (i = 0; i < numItems; ++i) source[i] = dest[i]`,
run after the swap of lines 195-197: `into` is the caller's array, `live` the buffer
holding the data. -/
def copyBack (live : Nat → Int) (numItems : Nat) : Nat → Nat → List Int → List Int
  | 0, _, into => into
  | fuel + 1, i, into =>
    if i < numItems then copyBack live numItems fuel (i + 1) (into.set i (live i))
    else into

/-- The `while (true)` loop of lines 169-268.  `source` and `dest` are the cells the two
pointers address, `destIsArray` says whether `dest == array`; `arrayBeyond` and
`bufferBeyond` are what memory holds after the caller's array and after the working
buffer. -/
def outerLoop (numItems : Nat) (arrayBeyond bufferBeyond : Nat → Int) :
    Nat → List Int → List Int → Bool → Outcome
  | 0, _, _, _ => Outcome.running
  | fuel + 1, source, dest, destIsArray =>
    let src := readCell source (if destIsArray then bufferBeyond else arrayBeyond)
    match passLoop src numItems (numItems + 1) 0 dest with
    | PassEnd.exit =>
      if destIsArray then Outcome.returned (copyBack src numItems numItems 0 dest)
      else Outcome.returned source
    | PassEnd.swapped dest₁ =>
      outerLoop numItems arrayBeyond bufferBeyond fuel dest₁ source (!destIsArray)
    | PassEnd.stop why => Outcome.stopped why

/-- The function `sortMerge(array, numItems)` of lines 138-269 with
`numItems = array.length`.  `heap` is `none` when `new T[numItems]` throws
`bad_alloc`; otherwise it is the raw memory at the address `new` returned: cells
`0 .. numItems - 1` are the uninitialised working buffer, the rest lies past it.
`beyond` is what memory holds after the caller's array. -/
def sortMerge (fuel : Nat) (heap : Option (Nat → Int)) (array : List Int)
    (beyond : Nat → Int) : Outcome :=
  match heap with
  | none => Outcome.thrown allocMessage array
  | some h =>
    outerLoop array.length beyond (fun k => h (array.length + k)) fuel array
      ((List.range array.length).map h) false

/-- The (offset, length) pairs of the loop of lines 83-91: `i` counts down from
`pieces` to 1, the piece starts at `iCurrent` with length `size / i`, then
`iCurrent += size / i` and `size -= size / i`.  The loop counter is the `Nat` argument
(the loop runs while `i > 0`). -/
def pieceLoop : Nat → Int → Int → List (Int × Int)
  | 0, _, _ => []
  | k + 1, iCurrent, size =>
    (iCurrent, size.tdiv ((k : Int) + 1)) ::
      pieceLoop k (iCurrent + size.tdiv ((k : Int) + 1)) (size - size.tdiv ((k : Int) + 1))

/-- The call `sortMerge(toSort + offset, len)` of a piece's thread (line 87): the callee's
array is the slice, and past the slice it sees the rest of `toSort`, then `beyond`. -/
def sortChunk (fuel : Nat) (heap : Option (Nat → Int)) (toSort : List Int)
    (beyond : Nat → Int) (offset len : Nat) : Outcome :=
  match sortMerge fuel heap ((toSort.drop offset).take len)
      (fun k => readCell toSort beyond (offset + len + k)) with
  | Outcome.returned chunk =>
    Outcome.returned (toSort.take offset ++ chunk ++ toSort.drop (offset + len))
  | Outcome.thrown msg _ => Outcome.thrown msg toSort
  | Outcome.stopped why => Outcome.stopped why
  | Outcome.running => Outcome.running

/-- The threads of lines 83-94 run one after the other: thread `slot` sorts its piece,
`heaps slot` being the memory its `new` obtains. -/
def runPieces (fuel : Nat) (heaps : Nat → Option (Nat → Int)) (beyond : Nat → Int) :
    Nat → List (Int × Int) → List Int → Outcome
  | _, [], toSort => Outcome.returned toSort
  | slot, (offset, len) :: rest, toSort =>
    match sortChunk fuel (heaps slot) toSort beyond offset.toNat len.toNat with
    | Outcome.returned sub => runPieces fuel heaps beyond (slot + 1) rest sub
    | Outcome.thrown msg a => Outcome.thrown msg a
    | Outcome.stopped why => Outcome.stopped why
    | Outcome.running => Outcome.running

/-- The function `threadedSort(numItems, pieces, toSort)` of lines 75-103 with
`numItems = toSort.length`.  Line 80 declares `std::thread threads[pieces]`: with a
negative `pieces` the declaration is undefined and the call stops there.  Otherwise the
pieces are sorted, then `sortMerge` runs on the whole array (line 102) with the memory
`heaps pieces.toNat`. -/
def threadedSort (fuel : Nat) (heaps : Nat → Option (Nat → Int)) (pieces : Int)
    (toSort : List Int) (beyond : Nat → Int) : Outcome :=
  if pieces < 0 then Outcome.stopped Stop.negativeLength
  else
    match runPieces fuel heaps beyond 0 (pieceLoop pieces.toNat 0 toSort.length) toSort with
    | Outcome.returned sub => sortMerge fuel (heaps pieces.toNat) sub beyond
    | Outcome.thrown msg a => Outcome.thrown msg a
    | Outcome.stopped why => Outcome.stopped why
    | Outcome.running => Outcome.running

/-- The values `source a, ..., source (b - 1)`. -/
def seg (source : Nat → Int) (a b : Nat) : List Int := (List.Ico a b).map source

/-- Invariant of the three merge loops of lines 215-253 for the runs starting at
`iFirstBegin` and `iFirstMax`: the indices stay within their runs, `iDest` has advanced
by the number of elements taken, and the part of `dest` written so far holds the
elements taken so far (after the elements of `source` before the first run). -/
structure MergeInv (source : Nat → Int) (numItems iFirstMax iSecondMax : Nat)
    (s : MergeState) : Prop where
  len : s.dest.length = numItems
  fb_le : s.iFirstBegin ≤ iFirstMax
  fb_le_n : s.iFirstBegin ≤ numItems
  sb_ge : iFirstMax ≤ s.iSecondBegin
  sb_le : s.iSecondBegin ≤ iSecondMax
  sb_n : s.iSecondBegin ≤ numItems ∨ s.iSecondBegin = iFirstMax
  d_eq : s.iDest = s.iFirstBegin + (s.iSecondBegin - iFirstMax)
  perm : (s.dest.take s.iDest).Perm
    (seg source 0 s.iFirstBegin ++ seg source iFirstMax s.iSecondBegin)

/-- The stores `dest[iDest] = source[i]` made by the merge loop of lines 215-233 from
state `s`, in order, as pairs `(iDest, i)`: the loop of `mergeLoop`, keeping the log of
lines 223 and 228 in place of the state. -/
def mergeLoopStores (source : Nat → Int) (numItems iFirstMax iSecondMax : Nat) :
    Nat → MergeState → List (Nat × Nat)
  | 0, _ => []
  | fuel + 1, s =>
    if s.iFirstBegin < iFirstMax ∧ s.iSecondBegin < iSecondMax
        ∧ s.iFirstBegin < numItems ∧ s.iSecondBegin < numItems then
      if iFirstMax < numItems ∧ s.iSecondBegin < numItems then
        if s.iDest < s.dest.length then
          if source s.iFirstBegin > source s.iSecondBegin then
            (s.iDest, s.iSecondBegin) ::
              mergeLoopStores source numItems iFirstMax iSecondMax fuel
                { s with dest := s.dest.set s.iDest (source s.iSecondBegin),
                         iSecondBegin := s.iSecondBegin + 1, iDest := s.iDest + 1 }
          else
            (s.iDest, s.iFirstBegin) ::
              mergeLoopStores source numItems iFirstMax iSecondMax fuel
                { s with dest := s.dest.set s.iDest (source s.iFirstBegin),
                         iFirstBegin := s.iFirstBegin + 1, iDest := s.iDest + 1 }
        else []
      else []
    else []

/-- The stores of the loop of lines 236-244 (line 241), as pairs `(iDest, i)`. -/
def firstTailStores (source : Nat → Int) (numItems iFirstMax : Nat) :
    Nat → MergeState → List (Nat × Nat)
  | 0, _ => []
  | fuel + 1, s =>
    if s.iFirstBegin < iFirstMax ∧ s.iFirstBegin < numItems then
      if s.iFirstBegin < numItems ∧ s.iDest < numItems then
        if s.iDest < s.dest.length then
          (s.iDest, s.iFirstBegin) ::
            firstTailStores source numItems iFirstMax fuel
              { s with dest := s.dest.set s.iDest (source s.iFirstBegin),
                       iFirstBegin := s.iFirstBegin + 1, iDest := s.iDest + 1 }
        else []
      else []
    else []

/-- The stores of the loop of lines 245-253 (line 250), as pairs `(iDest, i)`. -/
def secondTailStores (source : Nat → Int) (numItems iSecondMax : Nat) :
    Nat → MergeState → List (Nat × Nat)
  | 0, _ => []
  | fuel + 1, s =>
    if s.iSecondBegin < iSecondMax ∧ s.iSecondBegin < numItems then
      if s.iSecondBegin < numItems ∧ s.iDest < numItems then
        if s.iDest < s.dest.length then
          (s.iDest, s.iSecondBegin) ::
            secondTailStores source numItems iSecondMax fuel
              { s with dest := s.dest.set s.iDest (source s.iSecondBegin),
                       iSecondBegin := s.iSecondBegin + 1, iDest := s.iDest + 1 }
        else []
      else []
    else []

/-- The stores of the merge section (lines 213-253) in order: those of the merge loop,
then those of the two tail loops, each started where `mergeRuns` starts it. -/
def mergeRunsStores (source : Nat → Int) (numItems iFirstBegin iFirstMax iSecondMax : Nat)
    (dest : List Int) : List (Nat × Nat) :=
  mergeLoopStores source numItems iFirstMax iSecondMax (2 * numItems + 1)
      { iFirstBegin := iFirstBegin, iSecondBegin := iFirstMax, iDest := iFirstBegin,
        dest := dest } ++
    match mergeLoop source numItems iFirstMax iSecondMax (2 * numItems + 1)
        { iFirstBegin := iFirstBegin, iSecondBegin := iFirstMax, iDest := iFirstBegin,
          dest := dest } with
    | Loop.ok s₁ =>
      firstTailStores source numItems iFirstMax (numItems + 1) s₁ ++
        match firstTail source numItems iFirstMax (numItems + 1) s₁ with
        | Loop.ok s₂ => secondTailStores source numItems iSecondMax (numItems + 1) s₂
        | Loop.stop _ => []
    | Loop.stop _ => []

/-- The stores into `dest` of one pass (the loop of lines 172-258), in order: the loop of
`passLoop`, keeping the log of the merge sections. -/
def passStores (source : Nat → Int) (numItems : Nat) : Nat → Nat → List Int → List (Nat × Nat)
  | 0, _, _ => []
  | fuel + 1, iFirstBegin, dest =>
    if iFirstBegin < numItems then
      match scanLoop source numItems (numItems + 2) iFirstBegin with
      | Loop.ok m₁ =>
        let iFirstMax := m₁ + 1
        match scanLoop source numItems (numItems + 2) iFirstMax with
        | Loop.ok m₂ =>
          let iSecondMax := m₂ + 1
          if iFirstBegin = 0 ∧ iFirstMax = numItems then []
          else
            mergeRunsStores source numItems iFirstBegin iFirstMax iSecondMax dest ++
              match mergeRuns source numItems iFirstBegin iFirstMax iSecondMax dest with
              | Loop.ok s => passStores source numItems fuel iSecondMax s.dest
              | Loop.stop _ => []
        | Loop.stop _ => []
      | Loop.stop _ => []
    else []

/-- The state of the `while (true)` loop of `sortMerge` after `k` passes that all ended
at line 258 (none left through the exit condition): the cells `source` addresses, those
`dest` addresses, and whether `dest == array`. -/
def afterPasses (numItems : Nat) (arrayBeyond bufferBeyond : Nat → Int) :
    Nat → List Int → List Int → Bool → Option (List Int × List Int × Bool)
  | 0, source, dest, destIsArray => some (source, dest, destIsArray)
  | k + 1, source, dest, destIsArray =>
    match passLoop (readCell source (if destIsArray then bufferBeyond else arrayBeyond))
        numItems (numItems + 1) 0 dest with
    | PassEnd.swapped dest₁ =>
      afterPasses numItems arrayBeyond bufferBeyond k dest₁ source (!destIsArray)
    | PassEnd.exit => none
    | PassEnd.stop _ => none

/-- The constant of line 13, `#define MAX_NUMBER 3000`. -/
def MAX_NUMBER : Int := 3000

/-- The constant of line 14, `#define NUM_THREADS 4`. -/
def NUM_THREADS : Int := 4

/-- The function `randomInts(quantity)` of lines 110-132: `rands i` is the value the
`i`-th call of `rand()` gives. -/
def randomInts (rands : Nat → Int) (quantity : Nat) : List Int :=
  (List.range quantity).map (fun i => (rands i).tmod MAX_NUMBER)

/-- Lines 37-51 of `main`: `argv` holds the values `atoi` gives for `argv[1]`,
`argv[2]`, ... (so `argc = argv.length + 1`); the result is `numItems` and `numThreads`,
or `none` when only the usage line is printed. -/
def parseArgs (argv : List Int) : Option (Int × Int) :=
  match argv with
  | [a₁] => some (a₁, NUM_THREADS)
  | [a₁, a₂] => some (a₁, a₂)
  | _ => none

/-- The function `main` of lines 32-68: parse the arguments, fill the array with
`randomInts(numItems)`, then line 60, `threadedSort(numItems, 4, toSort)`.  The result
is `none` when only the usage line is printed.  The model covers item counts
`numItems ≥ 0`: with a negative count `new` throws in `randomInts` and in every piece,
the real program aborts, and that path is not modelled (the count is read as 0). -/
def main (fuel : Nat) (heaps : Nat → Option (Nat → Int)) (argv : List Int)
    (rands : Nat → Int) (beyond : Nat → Int) : Option Outcome :=
  match parseArgs argv with
  | some (numItems, _) =>
    some (threadedSort fuel heaps 4 (randomInts rands numItems.toNat) beyond)
  | none => none

/-- The bounds on the indices of the three merge loops of lines 215-253 (the part of
`MergeInv` that does not speak of the contents of `dest`). -/
structure MergeIdx (numItems iFirstMax iSecondMax : Nat) (s : MergeState) : Prop where
  len : s.dest.length = numItems
  fb_le : s.iFirstBegin ≤ iFirstMax
  fb_le_n : s.iFirstBegin ≤ numItems
  sb_ge : iFirstMax ≤ s.iSecondBegin
  sb_le : s.iSecondBegin ≤ iSecondMax
  sb_n : s.iSecondBegin ≤ numItems ∨ s.iSecondBegin = iFirstMax
  d_eq : s.iDest = s.iFirstBegin + (s.iSecondBegin - iFirstMax)

/-- The comparison of the merge loop on indices of `source`: `source[i] <= source[j]`,
the negation of the test `source[i] > source[j]` of line 221. -/
def keyLE (source : Nat → Int) (i j : Nat) : Bool := decide (source i ≤ source j)

/-- The number of maximal non-decreasing runs of a list: one more than the number of
adjacent pairs in descending order (none for the empty list). -/
def runCount : List Int → Nat
  | [] => 0
  | [_] => 1
  | x :: y :: rest => (if x > y then 1 else 0) + runCount (y :: rest)

/-! ## Lemmas on segments and buffers -/

theorem seg_self (source : Nat → Int) (a : Nat) : seg source a a = [] := by
  simp [seg]

theorem seg_succ (source : Nat → Int) {a b : Nat} (h : a ≤ b) :
    seg source a (b + 1) = seg source a b ++ [source b] := by
  simp [seg, List.Ico.succ_top h]

theorem seg_append (source : Nat → Int) {a b c : Nat} (h₁ : a ≤ b) (h₂ : b ≤ c) :
    seg source a b ++ seg source b c = seg source a c := by
  simp [seg, ← List.map_append, List.Ico.append_consecutive h₁ h₂]

theorem seg_length (source : Nat → Int) (a b : Nat) : (seg source a b).length = b - a := by
  simp [seg]

theorem readCell_of_lt (cells : List Int) (beyond : Nat → Int) {i : Nat}
    (h : i < cells.length) : readCell cells beyond i = cells.get ⟨i, h⟩ := by
  simp only [readCell, List.get?_eq_getElem?, List.getElem?_eq_getElem h]
  rfl

theorem readCell_of_le (cells : List Int) (beyond : Nat → Int) {i : Nat}
    (h : cells.length ≤ i) : readCell cells beyond i = beyond (i - cells.length) := by
  simp only [readCell, List.get?_eq_getElem?, List.getElem?_eq_none_iff.2 h]

theorem seg_readCell (cells : List Int) (beyond : Nat → Int) :
    seg (readCell cells beyond) 0 cells.length = cells := by
  apply List.ext_get
  · simp [seg]
  · intro i h₁ h₂
    simp [seg, List.Ico.zero_bot, readCell_of_lt cells beyond h₂]

theorem take_succ_set (l : List Int) (v : Int) {d : Nat} (h : d < l.length) :
    (l.set d v).take (d + 1) = l.take d ++ [v] := by
  induction l generalizing d with
  | nil => simp at h
  | cons x xs ih =>
    cases d with
    | zero => simp
    | succ k =>
      simp only [List.length_cons, Nat.add_lt_add_iff_right] at h
      simp [ih h]

theorem scanLoop_spec (source : Nat → Int) (numItems : Nat) :
    ∀ (fuel iMax m : Nat), scanLoop source numItems fuel iMax = Loop.ok m →
      iMax ≤ m ∧ m ≤ max iMax numItems ∧
      (∀ j, iMax ≤ j → j < m → source j ≤ source (j + 1) ∧ j < numItems) ∧
      (source (m + 1) < source m ∨ numItems ≤ m) := by
  intro fuel
  induction fuel with
  | zero => intro iMax m h; simp [scanLoop] at h
  | succ k ih =>
    intro iMax m h
    rw [scanLoop] at h
    split at h
    · rename_i hc
      simp only [Bool.and_eq_true, Bool.not_eq_true', decide_eq_false_iff_not, not_lt,
        decide_eq_true_eq, gt_iff_lt] at hc
      obtain ⟨h₁, h₂, h₃, h₄⟩ := ih _ _ h
      refine ⟨by omega, by omega, ?_, h₄⟩
      intro j hj hjm
      rcases Nat.eq_or_lt_of_le hj with rfl | hlt
      · exact ⟨hc.1, hc.2⟩
      · exact h₃ j hlt hjm
    · rename_i hc
      simp only [Bool.and_eq_true, Bool.not_eq_true', decide_eq_false_iff_not, not_lt,
        decide_eq_true_eq, gt_iff_lt, not_and, not_le] at hc
      cases h
      refine ⟨le_rfl, by omega, fun j h₁ h₂ => by omega, ?_⟩
      by_cases hlt : source (iMax + 1) < source iMax
      · exact Or.inl hlt
      · exact Or.inr (by have := hc (not_lt.1 hlt); omega)

/-! ## The merge of two runs keeps the elements -/

theorem perm_snoc_middle {a x y : List Int} (v : Int) (h : a.Perm (x ++ y)) :
    (a ++ [v]).Perm (x ++ [v] ++ y) := by
  refine (h.append_right [v]).trans ?_
  rw [List.append_assoc, List.append_assoc]
  exact List.Perm.append_left x List.perm_append_comm

theorem MergeInv.takeFirst {source : Nat → Int} {n fm sm : Nat} {s : MergeState}
    (h : MergeInv source n fm sm s) (h₁ : s.iFirstBegin < fm) (h₂ : s.iFirstBegin < n) :
    s.iDest < n ∧ MergeInv source n fm sm
      { s with dest := s.dest.set s.iDest (source s.iFirstBegin),
               iFirstBegin := s.iFirstBegin + 1, iDest := s.iDest + 1 } := by
  have hd : s.iDest < n := by
    have := h.d_eq; have := h.sb_n; have := h.sb_ge; omega
  refine ⟨hd, ?_⟩
  have hlen := h.len
  constructor
  · simpa using h.len
  · exact h₁
  · exact h₂
  · exact h.sb_ge
  · exact h.sb_le
  · exact h.sb_n
  · have := h.d_eq
    show s.iDest + 1 = s.iFirstBegin + 1 + (s.iSecondBegin - fm)
    omega
  · show ((s.dest.set s.iDest (source s.iFirstBegin)).take (s.iDest + 1)).Perm
      (seg source 0 (s.iFirstBegin + 1) ++ seg source fm s.iSecondBegin)
    rw [take_succ_set _ _ (by omega), seg_succ source (Nat.zero_le _)]
    exact perm_snoc_middle _ h.perm

theorem MergeInv.takeSecond {source : Nat → Int} {n fm sm : Nat} {s : MergeState}
    (h : MergeInv source n fm sm s) (h₁ : s.iSecondBegin < sm) (h₂ : s.iSecondBegin < n) :
    s.iDest < n ∧ MergeInv source n fm sm
      { s with dest := s.dest.set s.iDest (source s.iSecondBegin),
               iSecondBegin := s.iSecondBegin + 1, iDest := s.iDest + 1 } := by
  have hd : s.iDest < n := by
    have := h.d_eq; have := h.fb_le; have := h.sb_ge; omega
  refine ⟨hd, ?_⟩
  have hlen := h.len
  constructor
  · simpa using h.len
  · exact h.fb_le
  · exact h.fb_le_n
  · exact Nat.le_succ_of_le h.sb_ge
  · exact h₁
  · exact Or.inl h₂
  · have := h.d_eq; have := h.sb_ge
    show s.iDest + 1 = s.iFirstBegin + (s.iSecondBegin + 1 - fm)
    omega
  · show ((s.dest.set s.iDest (source s.iSecondBegin)).take (s.iDest + 1)).Perm
      (seg source 0 s.iFirstBegin ++ seg source fm (s.iSecondBegin + 1))
    rw [take_succ_set _ _ (by omega), seg_succ source h.sb_ge, ← List.append_assoc]
    exact h.perm.append_right _

theorem mergeLoop_inv (source : Nat → Int) (n fm sm : Nat) :
    ∀ (fuel : Nat) (s t : MergeState), MergeInv source n fm sm s →
      mergeLoop source n fm sm fuel s = Loop.ok t → MergeInv source n fm sm t := by
  intro fuel
  induction fuel with
  | zero => intro s t _ h; simp [mergeLoop] at h
  | succ k ih =>
    intro s t hs h
    rw [mergeLoop] at h
    split at h
    · rename_i hc
      split at h
      · split at h
        · split at h
          · exact ih _ _ (hs.takeSecond hc.2.1 hc.2.2.2).2 h
          · exact ih _ _ (hs.takeFirst hc.1 hc.2.2.1).2 h
        · cases h
      · cases h
    · cases h; exact hs

theorem firstTail_inv (source : Nat → Int) (n fm sm : Nat) :
    ∀ (fuel : Nat) (s t : MergeState), MergeInv source n fm sm s →
      firstTail source n fm fuel s = Loop.ok t →
      MergeInv source n fm sm t ∧ ¬ (t.iFirstBegin < fm ∧ t.iFirstBegin < n) := by
  intro fuel
  induction fuel with
  | zero => intro s t _ h; simp [firstTail] at h
  | succ k ih =>
    intro s t hs h
    rw [firstTail] at h
    split at h
    · rename_i hc
      split at h
      · split at h
        · exact ih _ _ (hs.takeFirst hc.1 hc.2).2 h
        · cases h
      · cases h
    · rename_i hc
      cases h; exact ⟨hs, hc⟩

theorem secondTail_inv (source : Nat → Int) (n fm sm : Nat) :
    ∀ (fuel : Nat) (s t : MergeState), MergeInv source n fm sm s →
      secondTail source n sm fuel s = Loop.ok t →
      MergeInv source n fm sm t ∧ ¬ (t.iSecondBegin < sm ∧ t.iSecondBegin < n)
        ∧ t.iFirstBegin = s.iFirstBegin := by
  intro fuel
  induction fuel with
  | zero => intro s t _ h; simp [secondTail] at h
  | succ k ih =>
    intro s t hs h
    rw [secondTail] at h
    split at h
    · rename_i hc
      split at h
      · split at h
        · have r := ih _ t (hs.takeSecond hc.1 hc.2).2 h
          exact r
        · cases h
      · cases h
    · rename_i hc
      cases h; exact ⟨hs, hc, rfl⟩

theorem mergeRuns_spec (source : Nat → Int) (n b fm sm : Nat) (dest : List Int)
    (s : MergeState) (hb : b < n) (hbf : b < fm) (hfs : fm < sm) (hlen : dest.length = n)
    (hperm : (dest.take b).Perm (seg source 0 b))
    (h : mergeRuns source n b fm sm dest = Loop.ok s) :
    s.dest.length = n ∧ (s.dest.take (min sm n)).Perm (seg source 0 (min sm n)) := by
  have h0 : MergeInv source n fm sm
      { iFirstBegin := b, iSecondBegin := fm, iDest := b, dest := dest } := by
    constructor
    · exact hlen
    · exact Nat.le_of_lt hbf
    · exact Nat.le_of_lt hb
    · exact le_rfl
    · exact Nat.le_of_lt hfs
    · exact Or.inr rfl
    · simp
    · simpa [seg_self] using hperm
  unfold mergeRuns at h
  split at h
  · rename_i s₁ h₁
    have i₁ := mergeLoop_inv source n fm sm _ _ _ h0 h₁
    split at h
    · rename_i s₂ h₂
      obtain ⟨i₂, c₂⟩ := firstTail_inv source n fm sm _ _ _ i₁ h₂
      obtain ⟨i₃, c₃, e₃⟩ := secondTail_inv source n fm sm _ _ _ i₂ h
      rw [← e₃] at c₂
      refine ⟨i₃.len, ?_⟩
      have hd := i₃.d_eq
      have hp := i₃.perm
      have a₁ := i₃.fb_le; have a₂ := i₃.fb_le_n; have a₃ := i₃.sb_ge
      have a₄ := i₃.sb_le; have a₅ := i₃.sb_n
      by_cases hfn : fm ≤ n
      · have e₁ : s.iFirstBegin = fm := by omega
        have e₂ : s.iSecondBegin = min sm n := by omega
        have e₄ : s.iDest = min sm n := by omega
        rw [e₄, e₁, e₂, seg_append source (Nat.zero_le _) (by omega)] at hp
        exact hp
      · have e₁ : s.iFirstBegin = n := by omega
        have e₂ : s.iSecondBegin = fm := by omega
        have e₄ : s.iDest = n := by omega
        have e₅ : min sm n = n := by omega
        rw [e₄, e₁, e₂, seg_self, List.append_nil] at hp
        rw [e₅]
        exact hp
    · cases h
  · cases h

/-! ## Partial correctness of `sortMerge` and `threadedSort` -/

theorem passLoop_swapped (source : Nat → Int) (n : Nat) :
    ∀ (fuel b : Nat) (dest out : List Int), dest.length = n →
      (dest.take (min b n)).Perm (seg source 0 (min b n)) →
      passLoop source n fuel b dest = PassEnd.swapped out →
      out.length = n ∧ out.Perm (seg source 0 n) := by
  intro fuel
  induction fuel with
  | zero => intro b dest out _ _ h; simp [passLoop] at h
  | succ k ih =>
    intro b dest out hlen hperm h
    rw [passLoop] at h
    split at h
    · rename_i hb
      split at h
      · rename_i m₁ hm₁
        dsimp only at h
        split at h
        · rename_i m₂ hm₂
          have s₁ := (scanLoop_spec source n _ _ _ hm₁).1
          have s₂ := (scanLoop_spec source n _ _ _ hm₂).1
          split at h
          · cases h
          · split at h
            · rename_i s hs
              rw [Nat.min_eq_left (Nat.le_of_lt hb)] at hperm
              obtain ⟨l₁, p₁⟩ := mergeRuns_spec source n b (m₁ + 1) (m₂ + 1) dest s hb
                (by omega) (by omega) hlen hperm hs
              exact ih _ _ _ l₁ p₁ h
            · cases h
        · cases h
      · cases h
    · rename_i hb
      cases h
      have e : min b n = n := by omega
      rw [e, ← hlen, List.take_length] at hperm
      exact ⟨hlen, by rw [← hlen]; exact hperm⟩

theorem passLoop_exit (source : Nat → Int) (n : Nat) :
    ∀ (fuel b : Nat) (dest : List Int), passLoop source n fuel b dest = PassEnd.exit →
      ∀ j, j + 1 < n → source j ≤ source (j + 1) := by
  intro fuel
  induction fuel with
  | zero => intro b dest h; simp [passLoop] at h
  | succ k ih =>
    intro b dest h
    rw [passLoop] at h
    split at h
    · split at h
      · rename_i m₁ hm₁
        dsimp only at h
        split at h
        · rename_i m₂ hm₂
          split at h
          · rename_i hc
            obtain ⟨rfl, hn⟩ := hc
            intro j hj
            exact ((scanLoop_spec source n _ _ _ hm₁).2.2.1 j (Nat.zero_le _) (by omega)).1
          · split at h
            · exact ih _ _ h
            · cases h
        · cases h
      · cases h
    · cases h

theorem copyBack_spec (live : Nat → Int) (n : Nat) :
    ∀ (fuel i : Nat) (into : List Int), n ≤ i + fuel → i ≤ n → into.length = n →
      into.take i = seg live 0 i → copyBack live n fuel i into = seg live 0 n := by
  intro fuel
  induction fuel with
  | zero =>
    intro i into h₁ h₂ hlen ht
    have e : i = n := by omega
    subst e
    rw [← hlen, List.take_length] at ht
    simp only [copyBack]
    rw [ht, hlen]
  | succ k ih =>
    intro i into h₁ h₂ hlen ht
    rw [copyBack]
    split
    · rename_i hi
      apply ih
      · omega
      · omega
      · simpa using hlen
      · rw [take_succ_set _ _ (by omega), ht, seg_succ live (Nat.zero_le _)]
    · have e : i = n := by omega
      subst e
      rw [← hlen, List.take_length] at ht
      rw [ht, hlen]

theorem sorted_of_steps (cells : List Int) (beyond : Nat → Int)
    (h : ∀ j, j + 1 < cells.length →
      readCell cells beyond j ≤ readCell cells beyond (j + 1)) :
    cells.Sorted (· ≤ ·) := by
  unfold List.Sorted
  rw [← List.chain'_iff_pairwise, List.chain'_iff_get]
  intro i hi
  have h₁ : i < cells.length := by omega
  have h₂ : i + 1 < cells.length := by omega
  have := h i h₂
  rw [readCell_of_lt cells beyond h₁, readCell_of_lt cells beyond h₂] at this
  exact this

theorem outerLoop_returned (n : Nat) (arrayBeyond bufferBeyond : Nat → Int) :
    ∀ (fuel : Nat) (source dest : List Int) (destIsArray : Bool) (out : List Int),
      source.length = n → dest.length = n →
      outerLoop n arrayBeyond bufferBeyond fuel source dest destIsArray
        = Outcome.returned out →
      out.Sorted (· ≤ ·) ∧ out.Perm source := by
  intro fuel
  induction fuel with
  | zero => intro source dest d out _ _ h; simp [outerLoop] at h
  | succ k ih =>
    intro source dest d out hs hd h
    rw [outerLoop] at h
    split at h
    · rename_i hp
      have hsorted := sorted_of_steps source _ (by
        intro j hj
        rw [hs] at hj
        exact passLoop_exit _ n _ _ _ hp j hj)
      have hout : out = source := by
        split at h
        · cases h
          rw [copyBack_spec _ n n 0 dest (by omega) (Nat.zero_le _) hd (by simp [seg_self])]
          rw [← hs]
          exact seg_readCell source _
        · cases h; rfl
      rw [hout]
      exact ⟨hsorted, List.Perm.refl _⟩
    · rename_i dest₁ hp
      obtain ⟨l₁, p₁⟩ := passLoop_swapped _ n _ 0 dest dest₁ hd (by simp [seg_self]) hp
      obtain ⟨q₁, q₂⟩ := ih dest₁ source (!d) out l₁ hs h
      refine ⟨q₁, q₂.trans ?_⟩
      rw [← hs, seg_readCell] at p₁
      exact p₁
    · cases h

theorem sortMerge_returned (fuel : Nat) (heap : Option (Nat → Int)) (array : List Int)
    (beyond : Nat → Int) (out : List Int)
    (h : sortMerge fuel heap array beyond = Outcome.returned out) :
    out.Sorted (· ≤ ·) ∧ out.Perm array := by
  unfold sortMerge at h
  split at h
  · cases h
  · exact outerLoop_returned _ _ _ _ _ _ _ _ rfl (by simp) h

/-- C1: whenever `sortMerge(array, n)` returns normally, the caller's array is in
non-decreasing order and is a permutation of its contents at call time, whatever the
uninitialised working buffer and the memory past the two buffers hold. -/
theorem sortMerge_sorted_perm (fuel : Nat) (heap : Option (Nat → Int)) (array : List Int)
    (beyond : Nat → Int) (out : List Int)
    (h : sortMerge fuel heap array beyond = Outcome.returned out) :
    out.Sorted (· ≤ ·) ∧ out.Perm array :=
  sortMerge_returned fuel heap array beyond out h

/-- C1, witness: `[5, 3, 8, 1]` becomes `[1, 3, 5, 8]`. -/
theorem sortMerge_sorted_perm_witness :
    sortMerge 3 (some fun _ => 0) [5, 3, 8, 1] (fun _ => 0) = Outcome.returned [1, 3, 5, 8]
      ∧ ([1, 3, 5, 8] : List Int).Sorted (· ≤ ·)
      ∧ ([1, 3, 5, 8] : List Int).Perm [5, 3, 8, 1] :=
  ⟨by decide, sortMerge_sorted_perm 3 (some fun _ => 0) [5, 3, 8, 1] (fun _ => 0)
    [1, 3, 5, 8] (by decide)⟩

theorem sortChunk_perm (fuel : Nat) (heap : Option (Nat → Int)) (toSort : List Int)
    (beyond : Nat → Int) (offset len : Nat) (sub : List Int)
    (h : sortChunk fuel heap toSort beyond offset len = Outcome.returned sub) :
    sub.Perm toSort := by
  unfold sortChunk at h
  split at h
  · rename_i chunk hc
    cases h
    have hp := (sortMerge_returned _ _ _ _ _ hc).2
    have e : toSort = toSort.take offset ++ (toSort.drop offset).take len
        ++ toSort.drop (offset + len) := by
      rw [List.append_assoc, ← List.drop_drop, List.take_append_drop, List.take_append_drop]
    conv_rhs => rw [e]
    exact (hp.append_left _).append_right _
  · cases h
  · cases h
  · cases h

theorem runPieces_perm (fuel : Nat) (heaps : Nat → Option (Nat → Int)) (beyond : Nat → Int) :
    ∀ (bounds : List (Int × Int)) (slot : Nat) (toSort sub : List Int),
      runPieces fuel heaps beyond slot bounds toSort = Outcome.returned sub →
      sub.Perm toSort := by
  intro bounds
  induction bounds with
  | nil =>
    intro slot toSort sub h
    simp only [runPieces] at h
    cases h
    exact List.Perm.refl _
  | cons p rest ih =>
    intro slot toSort sub h
    obtain ⟨offset, len⟩ := p
    rw [runPieces] at h
    split at h
    · rename_i mid hm
      exact (ih _ _ _ h).trans (sortChunk_perm _ _ _ _ _ _ _ hm)
    · cases h
    · cases h
    · cases h

/-- C2: whenever `threadedSort(n, p, array)` returns (the pieces sorted one after the
other, then the whole array), the array is non-decreasing and a permutation of the
original values; this holds for every piece count, `p ≥ 1` included. -/
theorem threadedSort_sorted_perm (fuel : Nat) (heaps : Nat → Option (Nat → Int))
    (pieces : Int) (toSort : List Int) (beyond : Nat → Int) (out : List Int)
    (h : threadedSort fuel heaps pieces toSort beyond = Outcome.returned out) :
    out.Sorted (· ≤ ·) ∧ out.Perm toSort := by
  unfold threadedSort at h
  split at h
  · cases h
  · split at h
    · rename_i sub hs
      obtain ⟨h₁, h₂⟩ := sortMerge_returned _ _ _ _ _ h
      exact ⟨h₁, h₂.trans (runPieces_perm _ _ _ _ _ _ _ hs)⟩
    · cases h
    · cases h
    · cases h

/-- C2, witness: `[5, 3, 8, 1, 9, 2]` with two pieces: the pieces `(0, 3)` and `(3, 3)`
are sorted to `[3, 5, 8]` and `[1, 2, 9]`, and the call ends with `[1, 2, 3, 5, 8, 9]`. -/
theorem threadedSort_sorted_perm_witness :
    pieceLoop 2 0 6 = [(0, 3), (3, 3)]
      ∧ runPieces 3 (fun _ => some fun _ => 0) (fun _ => 0) 0 [(0, 3), (3, 3)]
          [5, 3, 8, 1, 9, 2] = Outcome.returned [3, 5, 8, 1, 2, 9]
      ∧ threadedSort 3 (fun _ => some fun _ => 0) 2 [5, 3, 8, 1, 9, 2] (fun _ => 0)
          = Outcome.returned [1, 2, 3, 5, 8, 9]
      ∧ ([1, 2, 3, 5, 8, 9] : List Int).Sorted (· ≤ ·)
      ∧ ([1, 2, 3, 5, 8, 9] : List Int).Perm [5, 3, 8, 1, 9, 2] :=
  ⟨by decide, by decide, by decide,
    threadedSort_sorted_perm 3 (fun _ => some fun _ => 0) 2 [5, 3, 8, 1, 9, 2] (fun _ => 0)
      [1, 2, 3, 5, 8, 9] (by decide)⟩

/-! ## The partition loop -/

theorem tdiv_bounds (s : Int) (k : Nat) (h : 0 ≤ s) :
    0 ≤ s.tdiv ((k : Int) + 1) ∧ s.tdiv ((k : Int) + 1) ≤ s := by
  have hk : (0 : Int) ≤ (k : Int) + 1 := by omega
  refine ⟨Int.tdiv_nonneg h hk, ?_⟩
  rw [Int.tdiv_eq_ediv h hk]
  exact Int.ediv_le_self _ h

theorem pieceLoop_length : ∀ (k : Nat) (c s : Int), (pieceLoop k c s).length = k := by
  intro k
  induction k with
  | zero => intro c s; rfl
  | succ k ih => intro c s; simp [pieceLoop, ih]

theorem pieceLoop_head : ∀ (k : Nat) (c s : Int), ∀ y ∈ (pieceLoop k c s).head?, y.1 = c := by
  intro k c s y hy
  cases k with
  | zero => simp [pieceLoop] at hy
  | succ k =>
    simp only [pieceLoop, List.head?_cons, Option.mem_def, Option.some.injEq] at hy
    rw [← hy]

theorem pieceLoop_within : ∀ (k : Nat) (c s : Int), 0 ≤ s →
    ∀ q ∈ pieceLoop k c s, c ≤ q.1 ∧ 0 ≤ q.2 ∧ q.1 + q.2 ≤ c + s := by
  intro k
  induction k with
  | zero => intro c s _ q hq; simp [pieceLoop] at hq
  | succ k ih =>
    intro c s hs q hq
    obtain ⟨b₁, b₂⟩ := tdiv_bounds s k hs
    simp only [pieceLoop, List.mem_cons] at hq
    rcases hq with rfl | hq
    · exact ⟨le_rfl, b₁, by simp only; omega⟩
    · obtain ⟨r₁, r₂, r₃⟩ := ih _ _ (by omega) q hq
      exact ⟨by omega, r₂, by omega⟩

theorem pieceLoop_chain : ∀ (k : Nat) (c s : Int),
    (pieceLoop k c s).Chain' (fun a b => b.1 = a.1 + a.2) := by
  intro k
  induction k with
  | zero => intro c s; simp [pieceLoop]
  | succ k ih =>
    intro c s
    rw [pieceLoop, List.chain'_cons']
    exact ⟨fun y hy => pieceLoop_head _ _ _ y hy, ih _ _⟩

theorem pieceLoop_sum : ∀ (k : Nat) (c s : Int),
    ((pieceLoop (k + 1) c s).map Prod.snd).sum = s := by
  intro k
  induction k with
  | zero => intro c s; simp [pieceLoop, Int.tdiv_one]
  | succ k ih =>
    intro c s
    rw [pieceLoop, List.map_cons, List.sum_cons, ih]
    omega

theorem pieceLoop_ordered : ∀ (k : Nat) (c s : Int), 0 ≤ s →
    (pieceLoop k c s).Pairwise (fun a b => a.1 + a.2 ≤ b.1) := by
  intro k
  induction k with
  | zero => intro c s _; simp [pieceLoop]
  | succ k ih =>
    intro c s hs
    obtain ⟨b₁, b₂⟩ := tdiv_bounds s k hs
    rw [pieceLoop, List.pairwise_cons]
    refine ⟨?_, ih _ _ (by omega)⟩
    intro q hq
    exact (pieceLoop_within k _ _ (by omega) q hq).1

theorem pieceLoop_covers : ∀ (k : Nat) (c s x : Int), 0 ≤ s → c ≤ x → x < c + s →
    ((pieceLoop (k + 1) c s).filter
      (fun q => decide (q.1 ≤ x ∧ x < q.1 + q.2))).length = 1 := by
  intro k
  induction k with
  | zero =>
    intro c s x hs h₁ h₂
    simp [pieceLoop, Int.tdiv_one, List.filter_cons, h₁, h₂]
  | succ k ih =>
    intro c s x hs h₁ h₂
    obtain ⟨b₁, b₂⟩ := tdiv_bounds s (k + 1) hs
    rw [pieceLoop, List.filter_cons]
    generalize s.tdiv (((k + 1 : Nat) : Int) + 1) = l at b₁ b₂ ⊢
    by_cases hx : x < c + l
    · have hnil : (pieceLoop (k + 1) (c + l) (s - l)).filter
          (fun q => decide (q.1 ≤ x ∧ x < q.1 + q.2)) = [] := by
        rw [List.filter_eq_nil_iff]
        intro q hq
        have := (pieceLoop_within (k + 1) _ _ (by omega) q hq).1
        simp only [decide_eq_true_eq, not_and, not_lt]
        intro hq₁
        omega
      rw [if_pos (by simpa using ⟨h₁, hx⟩), hnil]
      rfl
    · rw [if_neg (by simpa using fun _ => not_lt.1 hx)]
      exact ih (c + l) (s - l) x (by omega) (by omega) (by omega)

/-- C3: for `numItems ≥ 0` and `pieces ≥ 1` the loop of `threadedSort` computes `pieces`
pairs (offset, length); the first starts at 0, each starts where the one before ends,
every length is non-negative, the lengths sum to `numItems`, the pieces are pairwise
disjoint (each ends no later than every later one starts) and every index of
`[0, numItems)` lies in exactly one piece. -/
theorem pieceLoop_tiles (numItems pieces : Int) (hn : 0 ≤ numItems) (hp : 1 ≤ pieces) :
    (pieceLoop pieces.toNat 0 numItems).length = pieces.toNat
      ∧ (∀ q ∈ (pieceLoop pieces.toNat 0 numItems).head?, q.1 = 0)
      ∧ (pieceLoop pieces.toNat 0 numItems).Chain' (fun a b => b.1 = a.1 + a.2)
      ∧ (∀ q ∈ pieceLoop pieces.toNat 0 numItems, 0 ≤ q.1 ∧ 0 ≤ q.2 ∧ q.1 + q.2 ≤ numItems)
      ∧ ((pieceLoop pieces.toNat 0 numItems).map Prod.snd).sum = numItems
      ∧ (pieceLoop pieces.toNat 0 numItems).Pairwise (fun a b => a.1 + a.2 ≤ b.1)
      ∧ ∀ x : Int, 0 ≤ x → x < numItems →
          ((pieceLoop pieces.toNat 0 numItems).filter
            (fun q => decide (q.1 ≤ x ∧ x < q.1 + q.2))).length = 1 := by
  obtain ⟨k, hk⟩ : ∃ k : Nat, pieces.toNat = k + 1 := ⟨pieces.toNat - 1, by omega⟩
  refine ⟨pieceLoop_length _ _ _, pieceLoop_head _ _ _, pieceLoop_chain _ _ _, ?_, ?_,
    pieceLoop_ordered _ _ _ hn, ?_⟩
  · intro q hq
    have := pieceLoop_within _ _ _ hn q hq
    omega
  · rw [hk]; exact pieceLoop_sum k 0 numItems
  · intro x h₁ h₂
    rw [hk]
    exact pieceLoop_covers k 0 numItems x hn h₁ (by omega)

/-- C3, witness: ten items in four pieces are cut into `(0, 2), (2, 2), (4, 3), (7, 3)`. -/
theorem pieceLoop_tiles_witness :
    pieceLoop (4 : Int).toNat 0 10 = [(0, 2), (2, 2), (4, 3), (7, 3)]
      ∧ ((pieceLoop (4 : Int).toNat 0 10).map Prod.snd).sum = 10
      ∧ ∀ x : Int, 0 ≤ x → x < 10 →
          ((pieceLoop (4 : Int).toNat 0 10).filter
            (fun q => decide (q.1 ≤ x ∧ x < q.1 + q.2))).length = 1 :=
  ⟨by decide, (pieceLoop_tiles 10 4 (by decide) (by decide)).2.2.2.2.1,
    (pieceLoop_tiles 10 4 (by decide) (by decide)).2.2.2.2.2.2⟩

/-! ## The model never stops short: assertions hold, stores stay inside, fuel suffices -/

theorem scanLoop_ok (source : Nat → Int) (n : Nat) :
    ∀ (fuel iMax : Nat), n + 1 ≤ iMax + fuel → 1 ≤ fuel →
      ∃ m, scanLoop source n fuel iMax = Loop.ok m := by
  intro fuel
  induction fuel with
  | zero => intro iMax _ h; omega
  | succ k ih =>
    intro iMax h₁ _
    rw [scanLoop]
    split
    · rename_i hc
      simp only [Bool.and_eq_true, decide_eq_true_eq] at hc
      exact ih (iMax + 1) (by omega) (by omega)
    · exact ⟨iMax, rfl⟩

theorem mergeLoop_ok (source : Nat → Int) (n fm sm : Nat) :
    ∀ (fuel : Nat) (s : MergeState), MergeInv source n fm sm s →
      (n - s.iFirstBegin) + (n - s.iSecondBegin) + 1 ≤ fuel →
      ∃ t, mergeLoop source n fm sm fuel s = Loop.ok t := by
  intro fuel
  induction fuel with
  | zero => intro s _ h; omega
  | succ k ih =>
    intro s hs hf
    rw [mergeLoop]
    split
    · rename_i hc
      have hfm : fm < n := by have := hs.sb_ge; omega
      rw [if_pos ⟨hfm, hc.2.2.2⟩]
      have hd := (hs.takeFirst hc.1 hc.2.2.1).1
      rw [if_pos (by rw [hs.len]; exact hd)]
      split
      · exact ih _ (hs.takeSecond hc.2.1 hc.2.2.2).2 (by simp only; omega)
      · exact ih _ (hs.takeFirst hc.1 hc.2.2.1).2 (by simp only; omega)
    · exact ⟨s, rfl⟩

theorem firstTail_ok (source : Nat → Int) (n fm sm : Nat) :
    ∀ (fuel : Nat) (s : MergeState), MergeInv source n fm sm s →
      (n - s.iFirstBegin) + 1 ≤ fuel →
      ∃ t, firstTail source n fm fuel s = Loop.ok t := by
  intro fuel
  induction fuel with
  | zero => intro s _ h; omega
  | succ k ih =>
    intro s hs hf
    rw [firstTail]
    split
    · rename_i hc
      have hd := (hs.takeFirst hc.1 hc.2).1
      rw [if_pos ⟨hc.2, hd⟩, if_pos (by rw [hs.len]; exact hd)]
      exact ih _ (hs.takeFirst hc.1 hc.2).2 (by simp only; omega)
    · exact ⟨s, rfl⟩

theorem secondTail_ok (source : Nat → Int) (n fm sm : Nat) :
    ∀ (fuel : Nat) (s : MergeState), MergeInv source n fm sm s →
      (n - s.iSecondBegin) + 1 ≤ fuel →
      ∃ t, secondTail source n sm fuel s = Loop.ok t := by
  intro fuel
  induction fuel with
  | zero => intro s _ h; omega
  | succ k ih =>
    intro s hs hf
    rw [secondTail]
    split
    · rename_i hc
      have hd := (hs.takeSecond hc.1 hc.2).1
      rw [if_pos ⟨hc.2, hd⟩, if_pos (by rw [hs.len]; exact hd)]
      exact ih _ (hs.takeSecond hc.1 hc.2).2 (by simp only; omega)
    · exact ⟨s, rfl⟩

theorem mergeRuns_init (source : Nat → Int) (n b fm sm : Nat) (dest : List Int)
    (hb : b < n) (hbf : b < fm) (hfs : fm < sm) (hlen : dest.length = n)
    (hperm : (dest.take b).Perm (seg source 0 b)) :
    MergeInv source n fm sm
      { iFirstBegin := b, iSecondBegin := fm, iDest := b, dest := dest } := by
  constructor
  · exact hlen
  · exact Nat.le_of_lt hbf
  · exact Nat.le_of_lt hb
  · exact le_rfl
  · exact Nat.le_of_lt hfs
  · exact Or.inr rfl
  · simp
  · simpa [seg_self] using hperm

theorem mergeRuns_ok (source : Nat → Int) (n b fm sm : Nat) (dest : List Int)
    (hb : b < n) (hbf : b < fm) (hfs : fm < sm) (hlen : dest.length = n)
    (hperm : (dest.take b).Perm (seg source 0 b)) :
    ∃ s, mergeRuns source n b fm sm dest = Loop.ok s := by
  have h0 := mergeRuns_init source n b fm sm dest hb hbf hfs hlen hperm
  obtain ⟨s₁, h₁⟩ := mergeLoop_ok source n fm sm (2 * n + 1) _ h0 (by simp only; omega)
  have i₁ := mergeLoop_inv source n fm sm _ _ _ h0 h₁
  obtain ⟨s₂, h₂⟩ := firstTail_ok source n fm sm (n + 1) s₁ i₁ (by omega)
  have i₂ := (firstTail_inv source n fm sm _ _ _ i₁ h₂).1
  obtain ⟨s₃, h₃⟩ := secondTail_ok source n fm sm (n + 1) s₂ i₂ (by omega)
  refine ⟨s₃, ?_⟩
  unfold mergeRuns
  rw [h₁]
  simp only [h₂, h₃]

theorem passLoop_no_stop (source : Nat → Int) (n : Nat) :
    ∀ (fuel b : Nat) (dest : List Int), dest.length = n →
      (dest.take (min b n)).Perm (seg source 0 (min b n)) → n + 1 ≤ b + fuel → 1 ≤ fuel →
      ∀ why, passLoop source n fuel b dest ≠ PassEnd.stop why := by
  intro fuel
  induction fuel with
  | zero => intro b dest _ _ _ h; omega
  | succ k ih =>
    intro b dest hlen hperm hf _ why
    rw [passLoop]
    split
    · rename_i hb
      obtain ⟨m₁, hm₁⟩ := scanLoop_ok source n (n + 2) b (by omega) (by omega)
      obtain ⟨a₁, a₂, -⟩ := scanLoop_spec source n _ _ _ hm₁
      obtain ⟨m₂, hm₂⟩ := scanLoop_ok source n (n + 2) (m₁ + 1) (by omega) (by omega)
      obtain ⟨c₁, -⟩ := scanLoop_spec source n _ _ _ hm₂
      rw [hm₁]
      dsimp only
      rw [hm₂]
      dsimp only
      split
      · intro h; cases h
      · rw [Nat.min_eq_left (Nat.le_of_lt hb)] at hperm
        obtain ⟨s, hs⟩ := mergeRuns_ok source n b (m₁ + 1) (m₂ + 1) dest hb (by omega)
          (by omega) hlen hperm
        obtain ⟨l₁, p₁⟩ := mergeRuns_spec source n b (m₁ + 1) (m₂ + 1) dest s hb
          (by omega) (by omega) hlen hperm hs
        rw [hs]
        dsimp only
        by_cases hk : m₂ + 1 < n
        · exact ih _ _ l₁ p₁ (by omega) (by omega) why
        · cases k with
          | zero => omega
          | succ k' =>
            rw [passLoop, if_neg hk]
            intro h; cases h
    · intro h; cases h

theorem outerLoop_no_stop (n : Nat) (arrayBeyond bufferBeyond : Nat → Int) :
    ∀ (fuel : Nat) (source dest : List Int) (destIsArray : Bool),
      source.length = n → dest.length = n →
      ∀ why, outerLoop n arrayBeyond bufferBeyond fuel source dest destIsArray
        ≠ Outcome.stopped why := by
  intro fuel
  induction fuel with
  | zero => intro source dest d _ _ why h; simp [outerLoop] at h
  | succ k ih =>
    intro source dest d hs hd why h
    rw [outerLoop] at h
    split at h
    · split at h <;> cases h
    · rename_i dest₁ hp
      obtain ⟨l₁, -⟩ := passLoop_swapped _ n _ 0 dest dest₁ hd (by simp [seg_self]) hp
      exact ih dest₁ source (!d) l₁ hs why h
    · rename_i why₁ hp
      exact passLoop_no_stop _ n (n + 1) 0 dest hd (by simp [seg_self]) (by omega)
        (by omega) why₁ hp

theorem sortMerge_no_stop (fuel : Nat) (heap : Option (Nat → Int)) (array : List Int)
    (beyond : Nat → Int) (why : Stop) :
    sortMerge fuel heap array beyond ≠ Outcome.stopped why := by
  unfold sortMerge
  split
  · intro h; cases h
  · exact outerLoop_no_stop _ _ _ _ _ _ _ rfl (by simp) why

/-! ## The exit condition and the cell past the end -/

theorem passLoop_exit_descent (source : Nat → Int) (n : Nat) :
    ∀ (fuel b : Nat) (dest : List Int), passLoop source n fuel b dest = PassEnd.exit →
      1 ≤ n ∧ source n < source (n - 1) := by
  intro fuel
  induction fuel with
  | zero => intro b dest h; simp [passLoop] at h
  | succ k ih =>
    intro b dest h
    rw [passLoop] at h
    split at h
    · split at h
      · rename_i m₁ hm₁
        dsimp only at h
        split at h
        · split at h
          · rename_i hc
            obtain ⟨-, hn⟩ := hc
            subst hn
            rcases (scanLoop_spec source (m₁ + 1) _ _ _ hm₁).2.2.2 with hd | hd
            · exact ⟨by omega, by simpa using hd⟩
            · omega
          · split at h
            · exact ih _ _ h
            · cases h
        · cases h
      · cases h
    · cases h

theorem no_exit_of_last_le (cells : List Int) (beyond : Nat → Int) (fuel b : Nat)
    (dest : List Int) (hle : ∀ x ∈ cells.getLast?, x ≤ beyond 0) :
    passLoop (readCell cells beyond) cells.length fuel b dest ≠ PassEnd.exit := by
  intro h
  obtain ⟨h₁, h₂⟩ := passLoop_exit_descent _ _ fuel b dest h
  have hlt : cells.length - 1 < cells.length := by omega
  rw [readCell_of_le cells beyond (le_refl _), readCell_of_lt cells beyond hlt,
    Nat.sub_self] at h₂
  have hlast : cells.getLast? = some (cells.get ⟨cells.length - 1, hlt⟩) := by
    rw [List.getLast?_eq_getElem?, List.getElem?_eq_getElem hlt]
    rfl
  have := hle _ (by rw [hlast]; rfl)
  omega

theorem outerLoop_running_of_le_beyond (arrayBeyond bufferBeyond : Nat → Int) :
    ∀ (fuel : Nat) (source dest : List Int) (destIsArray : Bool),
      dest.length = source.length →
      (∀ x ∈ source, x ≤ arrayBeyond 0 ∧ x ≤ bufferBeyond 0) →
      outerLoop source.length arrayBeyond bufferBeyond fuel source dest destIsArray
        = Outcome.running := by
  intro fuel
  induction fuel with
  | zero => intro source dest d _ _; rfl
  | succ k ih =>
    intro source dest d hd hle
    rw [outerLoop]
    split
    · rename_i hp
      exfalso
      refine no_exit_of_last_le source _ _ 0 dest ?_ hp
      intro x hx
      have hmem : x ∈ source := List.mem_of_mem_getLast? hx
      cases d
      · exact (hle x hmem).1
      · exact (hle x hmem).2
    · rename_i dest₁ hp
      obtain ⟨l₁, p₁⟩ := passLoop_swapped _ _ _ 0 dest dest₁ hd (by simp [seg_self]) hp
      rw [seg_readCell] at p₁
      have := ih dest₁ source (!d) (by omega) (fun x hx => hle x (p₁.mem_iff.1 hx))
      rw [l₁] at this
      exact this
    · rename_i why hp
      exact absurd hp (passLoop_no_stop _ _ _ 0 dest hd (by simp [seg_self]) (by omega)
        (by omega) why)

/-- C4, divergence: when no element of the array exceeds the cell stored right after the
array nor the cell stored right after the working buffer, the exit condition never
holds (the scan compares the last element with the cell past the end and finds no
descent there): for every fuel the `while (true)` loop is still running, however few
runs are left. -/
theorem sortMerge_runs_of_le_beyond (fuel : Nat) (h : Nat → Int) (array : List Int)
    (beyond : Nat → Int)
    (hle : ∀ x ∈ array, x ≤ beyond 0 ∧ x ≤ h array.length) :
    sortMerge fuel (some h) array beyond = Outcome.running := by
  exact outerLoop_running_of_le_beyond beyond (fun k => h (array.length + k)) fuel array _
    false (by simp) hle

/-- C4, the divergence at the one-element array `[0]` in zero-filled memory. -/
theorem sortMerge_runs_of_le_beyond_witness :
    (∀ x ∈ ([0] : List Int), x ≤ (fun _ => (0 : Int)) 0
        ∧ x ≤ (fun _ => (0 : Int)) ([0] : List Int).length)
      ∧ sortMerge 7 (some fun _ => 0) [0] (fun _ => 0) = Outcome.running :=
  ⟨by decide, sortMerge_runs_of_le_beyond 7 (fun _ => 0) [0] (fun _ => 0) (by decide)⟩

/-- C9, divergence: for a non-decreasing array whose last element does not exceed the
cell stored right after the array, the first pass does not leave through the exit
condition (with fuel for one pass the call is still running: the run was copied into
the working buffer and the buffers were swapped).  Whenever the call does return, the
array is unchanged. -/
theorem sortMerge_sorted_not_first_pass (h : Nat → Int) (array : List Int)
    (beyond : Nat → Int) (hs : array.Sorted (· ≤ ·))
    (hle : ∀ x ∈ array.getLast?, x ≤ beyond 0) :
    sortMerge 1 (some h) array beyond = Outcome.running
      ∧ ∀ fuel out, sortMerge fuel (some h) array beyond = Outcome.returned out →
          out = array := by
  constructor
  · show outerLoop array.length _ _ 1 array _ false = Outcome.running
    rw [outerLoop]
    split
    · rename_i hp
      exact absurd hp (no_exit_of_last_le array _ _ 0 _ hle)
    · rfl
    · rename_i why hp
      exact absurd hp (passLoop_no_stop _ _ _ 0 _ (by simp) (by simp [seg_self]) (by omega)
        (by omega) why)
  · intro fuel out hout
    obtain ⟨h₁, h₂⟩ := sortMerge_returned _ _ _ _ _ hout
    exact List.eq_of_perm_of_sorted h₂ h₁ hs

/-- C9, the divergence at the call `threadedSort(4, 2, toSort)` makes for the first piece
of `[2, 2, 2, 2]`: the array is `[2, 2]`, followed in memory by `2, 2`.  The first
pass takes no exit; here the call returns on its next pass, the array unchanged. -/
theorem sortMerge_sorted_not_first_pass_witness :
    ([2, 2] : List Int).Sorted (· ≤ ·)
      ∧ (∀ x ∈ ([2, 2] : List Int).getLast?,
          x ≤ (fun k => readCell [2, 2, 2, 2] (fun _ => 0) (2 + k)) 0)
      ∧ sortMerge 1 (some fun _ => 0) [2, 2]
          (fun k => readCell [2, 2, 2, 2] (fun _ => 0) (2 + k)) = Outcome.running
      ∧ sortMerge 2 (some fun _ => 0) [2, 2]
          (fun k => readCell [2, 2, 2, 2] (fun _ => 0) (2 + k)) = Outcome.returned [2, 2] :=
  ⟨by decide, by decide,
    (sortMerge_sorted_not_first_pass (fun _ => 0) [2, 2]
      (fun k => readCell [2, 2, 2, 2] (fun _ => 0) (2 + k)) (by decide) (by decide)).1,
    by decide⟩

/-- C7, divergence: whenever the scan started inside the array reports a run that
reaches the end of the array (`iMax + 1 ≥ numItems` on leaving the loop), it has read
cell `numItems`, past the last element: the loop condition reads `source[iMax + 1]`
before it tests `iMax < numItems`. -/
theorem scan_reads_past_end (source : Nat → Int) (numItems : Nat) :
    ∀ (fuel iMax m : Nat), scanLoop source numItems fuel iMax = Loop.ok m →
      iMax < numItems → numItems ≤ m + 1 →
      numItems ∈ scanReads source numItems fuel iMax := by
  intro fuel
  induction fuel with
  | zero => intro iMax m h; simp [scanLoop] at h
  | succ k ih =>
    intro iMax m h h₁ h₂
    rw [scanLoop] at h
    rw [scanReads]
    split at h
    · rename_i hc
      rw [if_pos hc]
      by_cases hlast : iMax + 1 = numItems
      · simp [hlast]
      · have := ih _ _ h (by omega) h₂
        simp [this]
    · cases h
      have e : iMax + 1 = numItems := by omega
      simp [e]

/-- C7, the divergence at the array `[5, 3, 8, 1]`: the scan started at the last element
(index 3) ends the run at index 4 after reading cells 3 and 4. -/
theorem scan_reads_past_end_witness :
    scanLoop (readCell [5, 3, 8, 1] (fun _ => 0)) 4 6 3 = Loop.ok 3
      ∧ scanReads (readCell [5, 3, 8, 1] (fun _ => 0)) 4 6 3 = [3, 4]
      ∧ 4 ∈ scanReads (readCell [5, 3, 8, 1] (fun _ => 0)) 4 6 3 :=
  ⟨by decide, by decide,
    scan_reads_past_end (readCell [5, 3, 8, 1] (fun _ => 0)) 4 6 3 3 (by decide) (by decide)
      (by decide)⟩

/-! ## The empty array, allocation failure, piece counts -/

theorem outerLoop_empty_running (arrayBeyond bufferBeyond : Nat → Int) :
    ∀ (fuel : Nat) (d : Bool),
      outerLoop 0 arrayBeyond bufferBeyond fuel [] [] d = Outcome.running := by
  intro fuel
  induction fuel with
  | zero => intro d; rfl
  | succ k ih =>
    intro d
    rw [outerLoop]
    have hp : passLoop (readCell [] (if d = true then bufferBeyond else arrayBeyond))
        0 (0 + 1) 0 [] = PassEnd.swapped [] := rfl
    simp only [hp]
    exact ih (!d)

theorem sortMerge_nil_running (fuel : Nat) (h : Nat → Int) (beyond : Nat → Int) :
    sortMerge fuel (some h) [] beyond = Outcome.running :=
  outerLoop_empty_running beyond _ fuel false

/-- C5, failing input: the empty array.  With `numItems = 0` the loop of line 172 is
never entered, so the exit condition inside it is never tested: for every fuel, every
working buffer and every memory content the `while (true)` loop is still running. -/
theorem sortMerge_empty_never_returns (fuel : Nat) (h : Nat → Int) (beyond : Nat → Int) :
    sortMerge fuel (some h) [] beyond = Outcome.running ∧
      ∀ out, sortMerge fuel (some h) [] beyond ≠ Outcome.returned out := by
  refine ⟨sortMerge_nil_running fuel h beyond, ?_⟩
  intro out hout
  rw [sortMerge_nil_running] at hout
  cases hout

/-- C6, divergence: with more pieces than items the first piece has length
`numItems / pieces = 0`, its thread runs `sortMerge` on an empty slice and never
finishes, so the call never reaches the final merge: for every fuel it is still
running. -/
theorem threadedSort_more_pieces_runs (fuel : Nat) (h : Nat → Int) (pieces : Int)
    (toSort : List Int) (beyond : Nat → Int) (hp : (toSort.length : Int) < pieces) :
    threadedSort fuel (fun _ => some h) pieces toSort beyond = Outcome.running := by
  obtain ⟨k, hk⟩ : ∃ k : Nat, pieces.toNat = k + 1 := ⟨pieces.toNat - 1, by omega⟩
  have hz : (toSort.length : Int).tdiv ((k : Int) + 1) = 0 :=
    Int.tdiv_eq_zero_of_lt (by omega) (by omega)
  unfold threadedSort
  rw [if_neg (by omega), hk, pieceLoop, hz, runPieces]
  simp only [sortChunk, Int.toNat_zero, List.drop_zero, List.take_zero,
    sortMerge_nil_running]

/-- C6, the divergence at `[7]` cut into two pieces. -/
theorem threadedSort_more_pieces_runs_witness :
    ((([7] : List Int).length : Int) < 2)
      ∧ threadedSort 9 (fun _ => some fun _ => 0) 2 [7] (fun _ => 0) = Outcome.running :=
  ⟨by decide, threadedSort_more_pieces_runs 9 (fun _ => 0) 2 [7] (fun _ => 0) (by decide)⟩

/-- C8: when `new` throws `bad_alloc`, `sortMerge` throws its message and the caller's
array is what it was at call time. -/
theorem sortMerge_alloc_failure (fuel : Nat) (array : List Int) (beyond : Nat → Int) :
    sortMerge fuel none array beyond
      = Outcome.thrown "ERROR: Could not allocate a new buffer for the merge sort" array := by
  rfl

/-- C10, counterexample: called with zero pieces, `threadedSort` rejects nothing: it
runs `sortMerge` on the whole array and returns normally with the array sorted. -/
theorem threadedSort_zero_pieces_sorts :
    threadedSort 3 (fun _ => some fun _ => 0) 0 [5, 3, 8, 1] (fun _ => 0)
      = Outcome.returned [1, 3, 5, 8] := by
  decide

/-- C10, amended: called with zero pieces, `threadedSort` performs no rejection: its
spawn loop runs zero times (no piece, no thread) and the call is exactly one run of
`sortMerge` on the whole array, whose outcome is the outcome of the call. -/
theorem threadedSort_zero_pieces (fuel : Nat) (heaps : Nat → Option (Nat → Int))
    (toSort : List Int) (beyond : Nat → Int) :
    pieceLoop (0 : Int).toNat 0 toSort.length = []
      ∧ runPieces fuel heaps beyond 0 (pieceLoop (0 : Int).toNat 0 toSort.length) toSort
          = Outcome.returned toSort
      ∧ threadedSort fuel heaps 0 toSort beyond
          = sortMerge fuel (heaps 0) toSort beyond := by
  refine ⟨rfl, rfl, ?_⟩
  unfold threadedSort
  rw [if_neg (by decide)]
  rfl

/-! ## Piece lengths -/

theorem pieceLoop_lengths_between (f cl : Int) :
    ∀ (k : Nat) (c s : Int), 0 ≤ s → f * (k : Int) ≤ s → s ≤ cl * (k : Int) →
      ∀ q ∈ pieceLoop k c s, f ≤ q.2 ∧ q.2 ≤ cl := by
  intro k
  induction k with
  | zero => intro c s _ _ _ q hq; simp [pieceLoop] at hq
  | succ k ih =>
    intro c s hs h₁ h₂ q hq
    have hd : (0 : Int) < (k : Int) + 1 := by omega
    have hk : (0 : Int) ≤ (k : Int) := by omega
    have e : s.tdiv ((k : Int) + 1) = s / ((k : Int) + 1) := Int.tdiv_eq_ediv hs (le_of_lt hd)
    have d₁ : s / ((k : Int) + 1) * ((k : Int) + 1) ≤ s := Int.ediv_mul_le s (ne_of_gt hd)
    have d₂ : s < (s / ((k : Int) + 1) + 1) * ((k : Int) + 1) :=
      Int.lt_ediv_add_one_mul_self s hd
    push_cast at h₁ h₂
    have b₁ : f ≤ s / ((k : Int) + 1) := Int.le_ediv_of_mul_le hd h₁
    have b₂ : s / ((k : Int) + 1) ≤ cl := by
      by_contra hcon
      have : cl + 1 ≤ s / ((k : Int) + 1) := by omega
      nlinarith
    simp only [pieceLoop, List.mem_cons] at hq
    rw [e] at hq
    generalize s / ((k : Int) + 1) = l at hq d₁ d₂ b₁ b₂
    rcases hq with rfl | hq
    · exact ⟨b₁, b₂⟩
    · refine ih (c + l) (s - l) (by nlinarith) (by nlinarith) ?_ q hq
      rcases eq_or_lt_of_le b₂ with rfl | hlt
      · nlinarith
      · have : l + 1 ≤ cl := by omega
        nlinarith

/-- C11: for `numItems ≥ 0` and `pieces ≥ 1` every piece length computed by the loop of
`threadedSort` is the floor or the ceiling of `numItems / pieces`, so two piece lengths
differ by at most 1. -/
theorem pieceLoop_balanced (numItems pieces : Int) (hn : 0 ≤ numItems) (hp : 1 ≤ pieces) :
    (∀ q ∈ pieceLoop pieces.toNat 0 numItems,
        q.2 = ⌊(numItems : ℚ) / (pieces : ℚ)⌋ ∨ q.2 = ⌈(numItems : ℚ) / (pieces : ℚ)⌉)
      ∧ ∀ q ∈ pieceLoop pieces.toNat 0 numItems, ∀ r ∈ pieceLoop pieces.toNat 0 numItems,
          |q.2 - r.2| ≤ 1 := by
  have hpq : (0 : ℚ) < (pieces : ℚ) := by exact_mod_cast (by omega : (0 : Int) < pieces)
  have hcast : ((pieces.toNat : Nat) : Int) = pieces := Int.toNat_of_nonneg (by omega)
  have hfc : ⌈(numItems : ℚ) / (pieces : ℚ)⌉ ≤ ⌊(numItems : ℚ) / (pieces : ℚ)⌋ + 1 :=
    Int.ceil_le_floor_add_one _
  have hlow : ⌊(numItems : ℚ) / (pieces : ℚ)⌋ * pieces ≤ numItems := by
    have := Int.floor_le ((numItems : ℚ) / (pieces : ℚ))
    rw [le_div_iff₀ hpq] at this
    exact_mod_cast this
  have hhigh : numItems ≤ ⌈(numItems : ℚ) / (pieces : ℚ)⌉ * pieces := by
    have := Int.le_ceil ((numItems : ℚ) / (pieces : ℚ))
    rw [div_le_iff₀ hpq] at this
    exact_mod_cast this
  have hbetween := pieceLoop_lengths_between ⌊(numItems : ℚ) / (pieces : ℚ)⌋
    ⌈(numItems : ℚ) / (pieces : ℚ)⌉ pieces.toNat 0 numItems hn
    (by rw [hcast]; exact hlow) (by rw [hcast]; exact hhigh)
  constructor
  · intro q hq
    have := hbetween q hq
    omega
  · intro q hq r hr
    have h₁ := hbetween q hq
    have h₂ := hbetween r hr
    rw [abs_le]
    constructor <;> omega

/-- C11, witness: ten items in four pieces have lengths 2, 2, 3, 3, the floor and the
ceiling of 10 / 4. -/
theorem pieceLoop_balanced_witness :
    (pieceLoop (4 : Int).toNat 0 10).map Prod.snd = [2, 2, 3, 3]
      ∧ ∀ q ∈ pieceLoop (4 : Int).toNat 0 10,
          q.2 = ⌊((10 : Int) : ℚ) / ((4 : Int) : ℚ)⌋ ∨ q.2 = ⌈((10 : Int) : ℚ) / ((4 : Int) : ℚ)⌉ :=
  ⟨by decide, (pieceLoop_balanced 10 4 (by decide) (by decide)).1⟩

/-! ## The run end computed by the scan -/

theorem scanLoop_eq (source : Nat → Int) (n : Nat) :
    ∀ (fuel iMax m : Nat), iMax ≤ m → m - iMax < fuel →
      (∀ j, iMax ≤ j → j < m → source j ≤ source (j + 1) ∧ j < n) →
      (source (m + 1) < source m ∨ n ≤ m) →
      scanLoop source n fuel iMax = Loop.ok m := by
  intro fuel
  induction fuel with
  | zero => intro iMax m _ h; omega
  | succ k ih =>
    intro iMax m h₁ h₂ hrun hend
    rw [scanLoop]
    rcases Nat.eq_or_lt_of_le h₁ with rfl | hlt
    · rw [if_neg]
      simp only [Bool.and_eq_true, Bool.not_eq_true', decide_eq_false_iff_not, not_lt,
        decide_eq_true_eq, gt_iff_lt, not_and, not_le]
      intro hle
      rcases hend with hd | hd
      · omega
      · exact hd
    · have := hrun iMax le_rfl hlt
      rw [if_pos (by simpa using this)]
      exact ih (iMax + 1) m hlt (by omega) (fun j hj hjm => hrun j (by omega) hjm) hend

theorem readCell_length (cells : List Int) (beyond : Nat → Int) :
    readCell cells beyond cells.length = beyond 0 := by
  rw [readCell_of_le cells beyond (le_refl _), Nat.sub_self]

theorem readCell_last (cells : List Int) (beyond : Nat → Int) (x : Int)
    (hx : x ∈ cells.getLast?) : readCell cells beyond (cells.length - 1) = x := by
  have hne : cells ≠ [] := by
    intro h; subst h; simp at hx
  have hlt : cells.length - 1 < cells.length := by
    have := List.length_pos.2 hne
    omega
  rw [readCell_of_lt cells beyond hlt]
  rw [List.getLast?_eq_getElem?, List.getElem?_eq_getElem hlt] at hx
  simpa using hx

/-- C12, divergence: when the array has no descent after the scan start `b` and its last
element does not exceed the cell stored right after the array, the scan leaves its loop
with `iMax = numItems`, so the run end it computes (`iMax + 1`) is `numItems + 1`, not
`numItems`: the last element is compared with the cell past the end. -/
theorem scan_overshoots_end (cells : List Int) (beyond : Nat → Int) (b : Nat)
    (hb : b < cells.length)
    (hrun : ∀ e, b < e → e < cells.length →
      ¬ readCell cells beyond e < readCell cells beyond (e - 1))
    (hle : ∀ x ∈ cells.getLast?, x ≤ beyond 0) :
    scanLoop (readCell cells beyond) cells.length (cells.length + 2) b
      = Loop.ok cells.length := by
  apply scanLoop_eq _ _ _ _ _ (Nat.le_of_lt hb) (by omega)
  · intro j hj hjn
    refine ⟨?_, hjn⟩
    by_cases hlast : j + 1 < cells.length
    · have := hrun (j + 1) (by omega) hlast
      simpa using this
    · have e : j = cells.length - 1 := by omega
      have e₂ : j + 1 = cells.length := by omega
      obtain ⟨x, hx⟩ : ∃ x, x ∈ cells.getLast? := by
        cases hc : cells.getLast? with
        | none =>
          rw [List.getLast?_eq_none_iff] at hc
          subst hc
          simp at hb
        | some x => exact ⟨x, rfl⟩
      rw [e₂, readCell_length, e, readCell_last cells beyond x hx]
      exact hle x hx
  · exact Or.inr le_rfl

/-- C12, the divergence at the one-element array `[1]` followed in memory by 5: the scan
from index 0 leaves its loop at `iMax = 1`, so `iFirstMax = 2` where the array has
length 1. -/
theorem scan_overshoots_end_witness :
    (0 < ([1] : List Int).length)
      ∧ scanLoop (readCell [1] (fun _ => 5)) ([1] : List Int).length
          (([1] : List Int).length + 2) 0 = Loop.ok ([1] : List Int).length :=
  ⟨by decide, scan_overshoots_end [1] (fun _ => 5) 0 (by decide)
    (by intro e h₁ h₂; simp at h₂; omega) (by decide)⟩

theorem scanLoop_first_descent (source : Nat → Int) (n b e : Nat) (hbe : b < e) (hen : e < n)
    (hdesc : source e < source (e - 1))
    (hfirst : ∀ j, b < j → j < e → ¬ source j < source (j - 1)) :
    scanLoop source n (n + 2) b = Loop.ok (e - 1) := by
  apply scanLoop_eq _ _ _ _ _ (by omega) (by omega)
  · intro j hj hje
    refine ⟨?_, by omega⟩
    have := hfirst (j + 1) (by omega) (by omega)
    simpa using this
  · left
    have e₁ : e - 1 + 1 = e := by omega
    rw [e₁]
    exact hdesc

theorem scanLoop_closed_end (cells : List Int) (beyond : Nat → Int) (b : Nat)
    (hb : b < cells.length)
    (hrun : ∀ e, b < e → e < cells.length →
      ¬ readCell cells beyond e < readCell cells beyond (e - 1))
    (hgt : ∀ x ∈ cells.getLast?, beyond 0 < x) :
    scanLoop (readCell cells beyond) cells.length (cells.length + 2) b
      = Loop.ok (cells.length - 1) := by
  apply scanLoop_eq _ _ _ _ _ (by omega) (by omega)
  · intro j hj hjn
    refine ⟨?_, by omega⟩
    have := hrun (j + 1) (by omega) (by omega)
    simpa using this
  · left
    obtain ⟨x, hx⟩ : ∃ x, x ∈ cells.getLast? := by
      cases hc : cells.getLast? with
      | none =>
        rw [List.getLast?_eq_none_iff] at hc
        subst hc
        simp at hb
      | some x => exact ⟨x, rfl⟩
    have e₁ : cells.length - 1 + 1 = cells.length := by omega
    rw [e₁, readCell_length, readCell_last cells beyond x hx]
    exact hgt x hx

/-! ## Assertions, the exit copy, and `main` -/

/-- C19: whatever the array, its length, the working buffer and the cells the scan reads
past the end, no run of `sortMerge` stops on a failed assertion (lines 218, 238, 239, 247,
248) nor on a store `dest[iDest]` outside the destination buffer (lines 223, 228, 241,
250), however long it runs. -/
theorem sortMerge_asserts_hold (fuel : Nat) (heap : Option (Nat → Int)) (array : List Int)
    (beyond : Nat → Int) :
    sortMerge fuel heap array beyond ≠ Outcome.stopped Stop.assertFailed
      ∧ sortMerge fuel heap array beyond ≠ Outcome.stopped Stop.wildStore :=
  ⟨sortMerge_no_stop fuel heap array beyond _, sortMerge_no_stop fuel heap array beyond _⟩

theorem afterPasses_spec (n : Nat) (arrayBeyond bufferBeyond : Nat → Int) :
    ∀ (k : Nat) (source dest : List Int) (d : Bool) (source₁ dest₁ : List Int) (d₁ : Bool),
      source.length = n → dest.length = n →
      afterPasses n arrayBeyond bufferBeyond k source dest d = some (source₁, dest₁, d₁) →
      source₁.length = n ∧ dest₁.length = n ∧ d₁ = (d ^^ decide (k % 2 = 1)) ∧
        ∀ fuel, outerLoop n arrayBeyond bufferBeyond (k + fuel) source dest d
          = outerLoop n arrayBeyond bufferBeyond fuel source₁ dest₁ d₁ := by
  intro k
  induction k with
  | zero =>
    intro source dest d source₁ dest₁ d₁ hs hd h
    simp only [afterPasses, Option.some.injEq, Prod.mk.injEq] at h
    obtain ⟨rfl, rfl, rfl⟩ := h
    refine ⟨hs, hd, by simp, ?_⟩
    intro fuel
    rw [Nat.zero_add]
  | succ k ih =>
    intro source dest d source₁ dest₁ d₁ hs hd h
    rw [afterPasses] at h
    split at h
    · rename_i dest₂ hp
      obtain ⟨l₁, -⟩ := passLoop_swapped _ n _ 0 dest dest₂ hd (by simp [seg_self]) hp
      obtain ⟨a₁, a₂, a₃, a₄⟩ := ih dest₂ source (!d) source₁ dest₁ d₁ l₁ hs h
      refine ⟨a₁, a₂, ?_, ?_⟩
      · rw [a₃]
        have hk : k % 2 = 0 ∨ k % 2 = 1 := by omega
        rcases hk with hk | hk
        · have e : (k + 1) % 2 = 1 := by omega
          cases d <;> simp [hk, e]
        · have e : (k + 1) % 2 = 0 := by omega
          cases d <;> simp [hk, e]
      · intro fuel
        have e : k + 1 + fuel = (k + fuel) + 1 := by omega
        rw [e, outerLoop]
        simp only [hp]
        exact a₄ fuel
    · cases h
    · cases h

/-- C15: when the exit condition fires after `k` completed passes, the call returns with
the caller's array holding the contents of the live source buffer.  The live source is
the working buffer exactly when `k` is odd; then the copy loop of lines 200-201 writes
all `n` cells of the caller's array (whatever they held) with the cells of the working
buffer.  When `k` is even the live source is the caller's array itself. -/
theorem sortMerge_exit_copies (k : Nat) (h : Nat → Int) (array : List Int)
    (beyond : Nat → Int) (source dest : List Int) (destIsArray : Bool)
    (hk : afterPasses array.length beyond (fun i => h (array.length + i)) k array
      ((List.range array.length).map h) false = some (source, dest, destIsArray))
    (hexit : passLoop
      (readCell source (if destIsArray then (fun i => h (array.length + i)) else beyond))
      array.length (array.length + 1) 0 dest = PassEnd.exit) :
    sortMerge (k + 1) (some h) array beyond = Outcome.returned source
      ∧ destIsArray = decide (k % 2 = 1)
      ∧ (destIsArray = true → ∀ into : List Int, into.length = array.length →
          copyBack (readCell source (fun i => h (array.length + i))) array.length
            array.length 0 into = source) := by
  obtain ⟨a₁, a₂, a₃, a₄⟩ := afterPasses_spec _ _ _ k _ _ _ _ _ _ rfl (by simp) hk
  have hcopy : ∀ (b : Nat → Int) (into : List Int), into.length = array.length →
      copyBack (readCell source b) array.length array.length 0 into = source := by
    intro b into hinto
    rw [copyBack_spec _ _ _ 0 into (by omega) (Nat.zero_le _) hinto (by simp [seg_self]),
      ← a₁, seg_readCell]
  refine ⟨?_, by simpa using a₃, fun _ into hinto => hcopy _ into hinto⟩
  show outerLoop _ _ _ (k + 1) _ _ false = _
  rw [a₄ 1, outerLoop]
  simp only [hexit]
  split
  · rw [hcopy _ dest a₂]
  · rfl

/-- C15, witness: `[2, 1]` leaves through the exit condition after one pass (odd): the live
source is the working buffer `[1, 2]`, which is copied into the caller's array. -/
theorem sortMerge_exit_copies_witness :
    afterPasses 2 (fun _ => 0) (fun i => (fun _ => (0 : Int)) (2 + i)) 1 [2, 1]
        ((List.range 2).map (fun _ => (0 : Int))) false = some ([1, 2], [2, 1], true)
      ∧ sortMerge (1 + 1) (some fun _ => 0) [2, 1] (fun _ => 0) = Outcome.returned [1, 2]
      ∧ true = decide (1 % 2 = 1) :=
  ⟨by decide,
    (sortMerge_exit_copies 1 (fun _ => 0) [2, 1] (fun _ => 0) [1, 2] [2, 1] true
      (by decide) (by decide)).1,
    (sortMerge_exit_copies 1 (fun _ => 0) [2, 1] (fun _ => 0) [1, 2] [2, 1] true
      (by decide) (by decide)).2.1⟩

/-- C20, divergence: invoked with two arguments, `main` computes `numThreads` from the
second one but line 60 passes the literal 4 to `threadedSort`: the call it makes is the
one made with a single argument, whatever the second argument is (eight items asked to
be cut in two pieces of four are cut in four pieces of two). -/
theorem main_ignores_numThreads (fuel : Nat) (heaps : Nat → Option (Nat → Int))
    (a₁ a₂ : Int) (rands : Nat → Int) (beyond : Nat → Int) :
    parseArgs [a₁, a₂] = some (a₁, a₂)
      ∧ main fuel heaps [a₁, a₂] rands beyond
          = some (threadedSort fuel heaps 4 (randomInts rands a₁.toNat) beyond)
      ∧ main fuel heaps [a₁, a₂] rands beyond = main fuel heaps [a₁] rands beyond
      ∧ pieceLoop (4 : Int).toNat 0 8 = [(0, 2), (2, 2), (4, 2), (6, 2)]
      ∧ pieceLoop (2 : Int).toNat 0 8 = [(0, 4), (4, 4)] := by
  refine ⟨rfl, rfl, rfl, by decide, by decide⟩

theorem sortChunk_no_stop (fuel : Nat) (heap : Option (Nat → Int)) (toSort : List Int)
    (beyond : Nat → Int) (offset len : Nat) (why : Stop) :
    sortChunk fuel heap toSort beyond offset len ≠ Outcome.stopped why := by
  unfold sortChunk
  split
  · intro h; cases h
  · intro h; cases h
  · rename_i why₁ hs
    exact absurd hs (sortMerge_no_stop _ _ _ _ why₁)
  · intro h; cases h

/-! ## The stores of the merge section -/

theorem MergeIdx.stepFirst {n fm sm : Nat} {s : MergeState} (v : Int)
    (h : MergeIdx n fm sm s) (h₁ : s.iFirstBegin < fm) (h₂ : s.iFirstBegin < n) :
    s.iDest < n ∧ MergeIdx n fm sm
      { s with dest := s.dest.set s.iDest v,
               iFirstBegin := s.iFirstBegin + 1, iDest := s.iDest + 1 } := by
  have hd : s.iDest < n := by
    have := h.d_eq; have := h.sb_n; have := h.sb_ge; omega
  refine ⟨hd, ?_⟩
  constructor
  · simpa using h.len
  · exact h₁
  · exact h₂
  · exact h.sb_ge
  · exact h.sb_le
  · exact h.sb_n
  · have := h.d_eq
    show s.iDest + 1 = s.iFirstBegin + 1 + (s.iSecondBegin - fm)
    omega

theorem MergeIdx.stepSecond {n fm sm : Nat} {s : MergeState} (v : Int)
    (h : MergeIdx n fm sm s) (h₁ : s.iSecondBegin < sm) (h₂ : s.iSecondBegin < n) :
    s.iDest < n ∧ MergeIdx n fm sm
      { s with dest := s.dest.set s.iDest v,
               iSecondBegin := s.iSecondBegin + 1, iDest := s.iDest + 1 } := by
  have hd : s.iDest < n := by
    have := h.d_eq; have := h.fb_le; have := h.sb_ge; omega
  refine ⟨hd, ?_⟩
  constructor
  · simpa using h.len
  · exact h.fb_le
  · exact h.fb_le_n
  · exact Nat.le_succ_of_le h.sb_ge
  · exact h₁
  · exact Or.inl h₂
  · have := h.d_eq; have := h.sb_ge
    show s.iDest + 1 = s.iFirstBegin + (s.iSecondBegin + 1 - fm)
    omega

theorem store_splice (l : List Int) (v : Int) (d e : Nat) (mid : List Int)
    (hd : d < l.length) (he : d + 1 ≤ e) :
    (l.set d v).take (d + 1) ++ mid ++ (l.set d v).drop e
      = l.take d ++ (v :: mid) ++ l.drop e := by
  rw [take_succ_set l v hd, List.drop_set_of_lt v l (by omega)]
  simp

theorem mergeLoop_trace (source : Nat → Int) (n fm sm : Nat) :
    ∀ (fuel : Nat) (s : MergeState), MergeIdx n fm sm s →
      (n - s.iFirstBegin) + (n - s.iSecondBegin) + 1 ≤ fuel →
      ∃ t, mergeLoop source n fm sm fuel s = Loop.ok t ∧ MergeIdx n fm sm t
        ∧ ¬ (t.iFirstBegin < min fm n ∧ t.iSecondBegin < min sm n)
        ∧ s.iDest ≤ t.iDest
        ∧ (mergeLoopStores source n fm sm fuel s).map Prod.fst = List.Ico s.iDest t.iDest
        ∧ t.dest = s.dest.take s.iDest
            ++ (mergeLoopStores source n fm sm fuel s).map (fun p => source p.2)
            ++ s.dest.drop t.iDest
        ∧ List.merge (List.Ico s.iFirstBegin (min fm n)) (List.Ico s.iSecondBegin (min sm n))
              (keyLE source)
            = (mergeLoopStores source n fm sm fuel s).map Prod.snd
              ++ List.merge (List.Ico t.iFirstBegin (min fm n))
                  (List.Ico t.iSecondBegin (min sm n)) (keyLE source) := by
  intro fuel
  induction fuel with
  | zero => intro s _ h; omega
  | succ k ih =>
    intro s hs hf
    rw [mergeLoop, mergeLoopStores]
    by_cases hc : s.iFirstBegin < fm ∧ s.iSecondBegin < sm
        ∧ s.iFirstBegin < n ∧ s.iSecondBegin < n
    · have hfm : fm < n := by have := hs.sb_ge; omega
      have hI₁ : List.Ico s.iFirstBegin (min fm n)
          = s.iFirstBegin :: List.Ico (s.iFirstBegin + 1) (min fm n) :=
        List.Ico.eq_cons (by omega)
      have hI₂ : List.Ico s.iSecondBegin (min sm n)
          = s.iSecondBegin :: List.Ico (s.iSecondBegin + 1) (min sm n) :=
        List.Ico.eq_cons (by omega)
      have hassert : fm < n ∧ s.iSecondBegin < n := ⟨hfm, hc.2.2.2⟩
      simp only [if_pos hc, if_pos hassert]
      by_cases hgt : source s.iFirstBegin > source s.iSecondBegin
      · obtain ⟨hd, hi⟩ := hs.stepSecond (source s.iSecondBegin) hc.2.1 hc.2.2.2
        have hdl : s.iDest < s.dest.length := by rw [hs.len]; exact hd
        simp only [if_pos hdl, if_pos hgt]
        obtain ⟨t, e₁, e₂, e₃, e₄, e₅, e₆, e₇⟩ := ih _ hi (by simp only; omega)
        refine ⟨t, e₁, e₂, e₃, by simp only at e₄; omega, ?_, ?_, ?_⟩
        · simp only at e₄ e₅
          rw [List.map_cons, e₅, ← List.Ico.eq_cons (by omega)]
        · simp only at e₄ e₆
          rw [e₆, List.map_cons]
          exact store_splice _ _ _ _ _ hdl e₄
        · have hle : ¬ keyLE source s.iFirstBegin s.iSecondBegin = true := by
            simp only [keyLE, decide_eq_true_eq, not_le]
            exact hgt
          simp only at e₇
          rw [List.map_cons, List.cons_append, ← e₇]
          conv_lhs => rw [hI₂, hI₁]
          rw [List.cons_merge_cons_neg _ _ _ hle, ← hI₁]
      · obtain ⟨hd, hi⟩ := hs.stepFirst (source s.iFirstBegin) hc.1 hc.2.2.1
        have hdl : s.iDest < s.dest.length := by rw [hs.len]; exact hd
        simp only [if_pos hdl, if_neg hgt]
        obtain ⟨t, e₁, e₂, e₃, e₄, e₅, e₆, e₇⟩ := ih _ hi (by simp only; omega)
        refine ⟨t, e₁, e₂, e₃, by simp only at e₄; omega, ?_, ?_, ?_⟩
        · simp only at e₄ e₅
          rw [List.map_cons, e₅, ← List.Ico.eq_cons (by omega)]
        · simp only at e₄ e₆
          rw [e₆, List.map_cons]
          exact store_splice _ _ _ _ _ hdl e₄
        · have hle : keyLE source s.iFirstBegin s.iSecondBegin = true := by
            simp only [keyLE, decide_eq_true_eq]
            exact not_lt.1 hgt
          simp only at e₇
          rw [List.map_cons, List.cons_append, ← e₇]
          conv_lhs => rw [hI₁, hI₂]
          rw [List.cons_merge_cons_pos _ _ _ hle, ← hI₂]
    · simp only [if_neg hc]
      refine ⟨s, rfl, hs, by omega, le_rfl, by simp, by simp, by simp⟩

theorem firstTail_trace (source : Nat → Int) (n fm sm : Nat) :
    ∀ (fuel : Nat) (s : MergeState), MergeIdx n fm sm s →
      (n - s.iFirstBegin) + 1 ≤ fuel →
      ∃ t, firstTail source n fm fuel s = Loop.ok t ∧ MergeIdx n fm sm t
        ∧ ¬ (t.iFirstBegin < min fm n)
        ∧ t.iSecondBegin = s.iSecondBegin
        ∧ s.iFirstBegin ≤ t.iFirstBegin
        ∧ s.iDest ≤ t.iDest
        ∧ (firstTailStores source n fm fuel s).map Prod.fst = List.Ico s.iDest t.iDest
        ∧ t.dest = s.dest.take s.iDest
            ++ (firstTailStores source n fm fuel s).map (fun p => source p.2)
            ++ s.dest.drop t.iDest
        ∧ (firstTailStores source n fm fuel s).map Prod.snd
            = List.Ico s.iFirstBegin t.iFirstBegin := by
  intro fuel
  induction fuel with
  | zero => intro s _ h; omega
  | succ k ih =>
    intro s hs hf
    rw [firstTail, firstTailStores]
    by_cases hc : s.iFirstBegin < fm ∧ s.iFirstBegin < n
    · obtain ⟨hd, hi⟩ := hs.stepFirst (source s.iFirstBegin) hc.1 hc.2
      have hdl : s.iDest < s.dest.length := by rw [hs.len]; exact hd
      have hassert : s.iFirstBegin < n ∧ s.iDest < n := ⟨hc.2, hd⟩
      simp only [if_pos hc, if_pos hassert, if_pos hdl]
      obtain ⟨t, e₁, e₂, e₃, e₄, e₅, e₆, e₇, e₈, e₉⟩ := ih _ hi (by simp only; omega)
      simp only at e₄ e₅ e₆ e₇ e₈ e₉
      refine ⟨t, e₁, e₂, e₃, e₄, by omega, by omega, ?_, ?_, ?_⟩
      · rw [List.map_cons, e₇, ← List.Ico.eq_cons (by omega)]
      · rw [e₈, List.map_cons]
        exact store_splice _ _ _ _ _ hdl e₆
      · rw [List.map_cons, e₉, ← List.Ico.eq_cons (by omega)]
    · simp only [if_neg hc]
      refine ⟨s, rfl, hs, by omega, rfl, le_rfl, le_rfl, by simp, by simp, by simp⟩

theorem secondTail_trace (source : Nat → Int) (n fm sm : Nat) :
    ∀ (fuel : Nat) (s : MergeState), MergeIdx n fm sm s →
      (n - s.iSecondBegin) + 1 ≤ fuel →
      ∃ t, secondTail source n sm fuel s = Loop.ok t ∧ MergeIdx n fm sm t
        ∧ ¬ (t.iSecondBegin < min sm n)
        ∧ t.iFirstBegin = s.iFirstBegin
        ∧ s.iSecondBegin ≤ t.iSecondBegin
        ∧ s.iDest ≤ t.iDest
        ∧ (secondTailStores source n sm fuel s).map Prod.fst = List.Ico s.iDest t.iDest
        ∧ t.dest = s.dest.take s.iDest
            ++ (secondTailStores source n sm fuel s).map (fun p => source p.2)
            ++ s.dest.drop t.iDest
        ∧ (secondTailStores source n sm fuel s).map Prod.snd
            = List.Ico s.iSecondBegin t.iSecondBegin := by
  intro fuel
  induction fuel with
  | zero => intro s _ h; omega
  | succ k ih =>
    intro s hs hf
    rw [secondTail, secondTailStores]
    by_cases hc : s.iSecondBegin < sm ∧ s.iSecondBegin < n
    · obtain ⟨hd, hi⟩ := hs.stepSecond (source s.iSecondBegin) hc.1 hc.2
      have hdl : s.iDest < s.dest.length := by rw [hs.len]; exact hd
      have hassert : s.iSecondBegin < n ∧ s.iDest < n := ⟨hc.2, hd⟩
      simp only [if_pos hc, if_pos hassert, if_pos hdl]
      obtain ⟨t, e₁, e₂, e₃, e₄, e₅, e₆, e₇, e₈, e₉⟩ := ih _ hi (by simp only; omega)
      simp only at e₄ e₅ e₆ e₇ e₈ e₉
      refine ⟨t, e₁, e₂, e₃, e₄, by omega, by omega, ?_, ?_, ?_⟩
      · rw [List.map_cons, e₇, ← List.Ico.eq_cons (by omega)]
      · rw [e₈, List.map_cons]
        exact store_splice _ _ _ _ _ hdl e₆
      · rw [List.map_cons, e₉, ← List.Ico.eq_cons (by omega)]
    · simp only [if_neg hc]
      refine ⟨s, rfl, hs, by omega, rfl, le_rfl, le_rfl, by simp, by simp, by simp⟩

theorem splice_compose (l X Y : List Int) (a d₁ d₂ : Nat) (ha : a ≤ l.length)
    (hX : X.length = d₁ - a) (h₁ : a ≤ d₁) (h₂ : d₁ ≤ d₂) :
    (l.take a ++ X ++ l.drop d₁).take d₁ ++ Y ++ (l.take a ++ X ++ l.drop d₁).drop d₂
      = l.take a ++ (X ++ Y) ++ l.drop d₂ := by
  have hlen : (l.take a ++ X).length = d₁ := by
    rw [List.length_append, List.length_take, hX]
    omega
  rw [List.take_left' hlen, List.drop_append_eq_append_drop, hlen,
    List.drop_eq_nil_of_le (by omega), List.nil_append, List.drop_drop]
  have e : d₁ + (d₂ - d₁) = d₂ := by omega
  rw [e]
  simp

theorem stores_length {α : Type} (st : List (Nat × Nat)) (f : Nat × Nat → α) (a b : Nat)
    (h : st.map Prod.fst = List.Ico a b) : (st.map f).length = b - a := by
  have := congrArg List.length h
  simpa using this

theorem mergeRuns_trace (source : Nat → Int) (n b fm sm : Nat) (dest : List Int)
    (hbf : b ≤ fm) (hfs : fm ≤ sm) (hb : b ≤ n) (hlen : dest.length = n) :
    ∃ s, mergeRuns source n b fm sm dest = Loop.ok s ∧ s.dest.length = n
      ∧ (mergeRunsStores source n b fm sm dest).map Prod.fst = List.Ico b (min sm n)
      ∧ (mergeRunsStores source n b fm sm dest).map Prod.snd
          = List.merge (List.Ico b (min fm n)) (List.Ico fm (min sm n)) (keyLE source)
      ∧ s.dest = dest.take b
          ++ (mergeRunsStores source n b fm sm dest).map (fun p => source p.2)
          ++ dest.drop (min sm n) := by
  have h0 : MergeIdx n fm sm
      { iFirstBegin := b, iSecondBegin := fm, iDest := b, dest := dest } :=
    ⟨hlen, hbf, hb, le_rfl, hfs, Or.inr rfl, by simp⟩
  obtain ⟨t₁, a₁, a₂, a₃, a₄, a₅, a₆, a₇⟩ :=
    mergeLoop_trace source n fm sm (2 * n + 1) _ h0 (by simp only; omega)
  obtain ⟨t₂, b₁, b₂, b₃, b₄, b₅, b₆, b₇, b₈, b₉⟩ :=
    firstTail_trace source n fm sm (n + 1) t₁ a₂ (by omega)
  obtain ⟨t₃, c₁, c₂, c₃, c₄, c₅, c₆, c₇, c₈, c₉⟩ :=
    secondTail_trace source n fm sm (n + 1) t₂ b₂ (by omega)
  simp only at a₄ a₅ a₆ a₇
  have i₁ := a₂.fb_le; have i₂ := a₂.fb_le_n; have i₃ := a₂.sb_ge
  have i₄ := a₂.sb_le; have i₅ := a₂.sb_n; have i₆ := a₂.d_eq
  have j₁ := b₂.fb_le; have j₂ := b₂.fb_le_n; have j₆ := b₂.d_eq
  have k₃ := c₂.sb_ge; have k₄ := c₂.sb_le; have k₅ := c₂.sb_n; have k₆ := c₂.d_eq
  have hfb₂ : t₂.iFirstBegin = min fm n := by omega
  have hd₃ : t₃.iDest = min sm n := by omega
  refine ⟨t₃, ?_, c₂.len, ?_, ?_, ?_⟩
  · simp only [mergeRuns, a₁, b₁, c₁]
  · simp only [mergeRunsStores, a₁, b₁, List.map_append, a₅, b₇, c₇]
    rw [List.Ico.append_consecutive b₆ c₆, List.Ico.append_consecutive a₄ (by omega), hd₃]
  · simp only [mergeRunsStores, a₁, b₁, List.map_append, b₉, c₉]
    rw [a₇]
    congr 1
    by_cases hcase : t₁.iFirstBegin < min fm n
    · have hs₁ : ¬ t₁.iSecondBegin < min sm n := fun h => a₃ ⟨hcase, h⟩
      have e₁ : t₃.iSecondBegin = t₁.iSecondBegin := by omega
      rw [List.Ico.eq_nil_of_le (not_lt.1 hs₁), List.merge_right, hfb₂, b₄, e₁,
        List.Ico.self_empty, List.append_nil]
    · have e₀ : t₁.iFirstBegin = min fm n := by omega
      rw [List.Ico.eq_nil_of_le (not_lt.1 hcase), List.nil_merge, hfb₂, e₀,
        List.Ico.self_empty, List.nil_append, b₄]
      by_cases hs₁ : t₁.iSecondBegin ≤ min sm n
      · have e₁ : t₃.iSecondBegin = min sm n := by omega
        rw [e₁]
      · have e₁ : t₃.iSecondBegin = t₁.iSecondBegin := by omega
        rw [e₁, List.Ico.self_empty, List.Ico.eq_nil_of_le (by omega)]
  · have l₁ := stores_length _ (fun p => source p.2) _ _ a₅
    have l₂ := stores_length _ (fun p => source p.2) _ _ b₇
    simp only at l₁
    rw [c₈, b₈, a₆, hd₃]
    simp only [mergeRunsStores, a₁, b₁, List.map_append]
    rw [splice_compose dest _ _ b t₁.iDest t₂.iDest (by omega) l₁ a₄ b₆]
    have l₃ : (List.map (fun p => source p.2)
        (mergeLoopStores source n fm sm (2 * n + 1)
          { iFirstBegin := b, iSecondBegin := fm, iDest := b, dest := dest })
        ++ List.map (fun p => source p.2) (firstTailStores source n fm (n + 1) t₁)).length
        = t₂.iDest - b := by
      rw [List.length_append, l₁, l₂]; omega
    rw [splice_compose dest _ _ b t₂.iDest (min sm n) (by omega) l₃ (by omega) (by omega)]
    simp [List.append_assoc]

/-! ## The merge section merges two runs, keeping equal keys in source order -/

theorem merge_keyLE_stable (source : Nat → Int) :
    ∀ (l r : List Nat), l.Pairwise (fun i j => i < j ∧ source i ≤ source j) →
      r.Pairwise (fun i j => i < j ∧ source i ≤ source j) →
      (∀ a ∈ l, ∀ c ∈ r, a < c) →
      (List.merge l r (keyLE source)).Pairwise
        (fun i j => source i ≤ source j ∧ (source i = source j → i < j)) := by
  intro l
  induction l with
  | nil =>
    intro r _ hr _
    rw [List.nil_merge]
    exact hr.imp (fun h => ⟨h.2, fun _ => h.1⟩)
  | cons x l ihl =>
    intro r
    induction r with
    | nil =>
      intro hl _ _
      rw [List.merge_right]
      exact hl.imp (fun h => ⟨h.2, fun _ => h.1⟩)
    | cons y r ihr =>
      intro hl hr hsep
      rw [List.cons_merge_cons]
      split
      · rename_i hxy
        simp only [keyLE, decide_eq_true_eq] at hxy
        apply List.Pairwise.cons
        · intro z hz
          rw [List.mem_merge, List.mem_cons] at hz
          rcases hz with hz | rfl | hz
          · have := List.rel_of_pairwise_cons hl hz
            exact ⟨this.2, fun _ => this.1⟩
          · exact ⟨hxy, fun _ => hsep x (List.mem_cons_self _ _) _ (List.mem_cons_self _ _)⟩
          · have := List.rel_of_pairwise_cons hr hz
            exact ⟨le_trans hxy this.2,
              fun _ => hsep x (List.mem_cons_self _ _) z (List.mem_cons_of_mem _ hz)⟩
        · exact ihl (y :: r) hl.tail hr
            (fun a ha c hc => hsep a (List.mem_cons_of_mem _ ha) c hc)
      · rename_i hxy
        simp only [keyLE, decide_eq_true_eq, not_le] at hxy
        apply List.Pairwise.cons
        · intro z hz
          rw [List.mem_merge, List.mem_cons] at hz
          rcases hz with (rfl | hz) | hz
          · exact ⟨le_of_lt hxy, fun h => absurd h (ne_of_lt hxy)⟩
          · have := List.rel_of_pairwise_cons hl hz
            have hlt : source y < source z := lt_of_lt_of_le hxy this.2
            exact ⟨le_of_lt hlt, fun h => absurd h (ne_of_lt hlt)⟩
          · have := List.rel_of_pairwise_cons hr hz
            exact ⟨this.2, fun _ => this.1⟩
        · exact ihr hl hr.tail
            (fun a ha c hc => hsep a ha c (List.mem_cons_of_mem _ hc))

theorem ico_run_pairwise (source : Nat → Int) (a b : Nat)
    (h : (seg source a b).Sorted (· ≤ ·)) :
    (List.Ico a b).Pairwise (fun i j => i < j ∧ source i ≤ source j) := by
  unfold List.Sorted seg at h
  rw [List.pairwise_map] at h
  exact (List.Ico.pairwise_lt a b).and h

theorem mergeRuns_stable_order (source : Nat → Int) (n b fm sm : Nat)
    (hr₁ : (seg source b (min fm n)).Sorted (· ≤ ·))
    (hr₂ : (seg source fm (min sm n)).Sorted (· ≤ ·)) :
    (List.merge (List.Ico b (min fm n)) (List.Ico fm (min sm n)) (keyLE source)).Pairwise
      (fun i j => source i ≤ source j ∧ (source i = source j → i < j)) := by
  apply merge_keyLE_stable source _ _ (ico_run_pairwise source _ _ hr₁)
    (ico_run_pairwise source _ _ hr₂)
  intro a ha c hc
  rw [List.Ico.mem] at ha hc
  omega

theorem splice_parts (l mid : List Int) (a e : Nat) (ha : a ≤ l.length)
    (hm : mid.length = e - a) (hae : a ≤ e) :
    (l.take a ++ mid ++ l.drop e).take a = l.take a
      ∧ (l.take a ++ mid ++ l.drop e).drop e = l.drop e
      ∧ ((l.take a ++ mid ++ l.drop e).drop a).take (e - a) = mid := by
  have h₁ : (l.take a).length = a := by rw [List.length_take]; omega
  have h₂ : (l.take a ++ mid).length = e := by rw [List.length_append, h₁, hm]; omega
  refine ⟨?_, ?_, ?_⟩
  · rw [List.append_assoc, List.take_left' h₁]
  · rw [List.drop_left' h₂]
  · rw [List.append_assoc, List.drop_left' h₁, List.take_left' hm]

/-- C13: for adjacent non-decreasing runs `[b₀, e₀)` and `[e₀, e₁)` of the source with
`e₁ ≤ n`, the merge section ends normally; its stores go to `dest[b₀], ..., dest[e₁ - 1]`
in this order, once each, and nothing else of `dest` changes; `dest[b₀ .. e₁)` then
holds the merge of the two runs, which is non-decreasing and a permutation of
`source[b₀ .. e₁)`. -/
theorem mergeRuns_merges (source : Nat → Int) (n b₀ e₀ e₁ : Nat) (dest : List Int)
    (h₀₁ : b₀ ≤ e₀) (h₁₂ : e₀ ≤ e₁) (h₂ : e₁ ≤ n) (hlen : dest.length = n)
    (hr₁ : (seg source b₀ e₀).Sorted (· ≤ ·)) (hr₂ : (seg source e₀ e₁).Sorted (· ≤ ·)) :
    ∃ s, mergeRuns source n b₀ e₀ e₁ dest = Loop.ok s
      ∧ s.dest.length = n
      ∧ (mergeRunsStores source n b₀ e₀ e₁ dest).map Prod.fst = List.Ico b₀ e₁
      ∧ s.dest.take b₀ = dest.take b₀
      ∧ s.dest.drop e₁ = dest.drop e₁
      ∧ (s.dest.drop b₀).take (e₁ - b₀)
          = List.merge (seg source b₀ e₀) (seg source e₀ e₁) (fun x y => decide (x ≤ y))
      ∧ ((s.dest.drop b₀).take (e₁ - b₀)).Sorted (· ≤ ·)
      ∧ ((s.dest.drop b₀).take (e₁ - b₀)).Perm (seg source b₀ e₁) := by
  have m₀ : min e₀ n = e₀ := by omega
  have m₁ : min e₁ n = e₁ := by omega
  obtain ⟨s, a₁, a₂, a₃, a₄, a₅⟩ :=
    mergeRuns_trace source n b₀ e₀ e₁ dest h₀₁ h₁₂ (by omega) hlen
  rw [m₀, m₁] at a₄
  rw [m₁] at a₃ a₅
  have hmid : (mergeRunsStores source n b₀ e₀ e₁ dest).map (fun p => source p.2)
      = (List.merge (List.Ico b₀ e₀) (List.Ico e₀ e₁) (keyLE source)).map source := by
    rw [← a₄, List.map_map]
    rfl
  have hlenmid := stores_length _ (fun p => source p.2) _ _ a₃
  obtain ⟨p₁, p₂, p₃⟩ := splice_parts dest _ b₀ e₁ (by omega) hlenmid (by omega)
  rw [← a₅] at p₁ p₂ p₃
  have hstable := mergeRuns_stable_order source n b₀ e₀ e₁ (by rw [m₀]; exact hr₁)
    (by rw [m₁]; exact hr₂)
  rw [m₀, m₁] at hstable
  refine ⟨s, a₁, a₂, a₃, p₁, p₂, ?_, ?_, ?_⟩
  · rw [p₃, hmid]
    exact List.map_merge (fun _ _ _ _ => rfl)
  · rw [p₃, hmid]
    unfold List.Sorted
    rw [List.pairwise_map]
    exact hstable.imp (fun h => h.1)
  · rw [p₃, hmid, ← seg_append source h₀₁ h₁₂]
    unfold seg
    rw [← List.map_append]
    exact (List.merge_perm_append (keyLE source)).map source

/-- C13, witness: in `[3, 5, 8, 1, 2, 9]` the runs `[0, 3)` and `[3, 6)` are merged into
`[1, 2, 3, 5, 8, 9]`. -/
theorem mergeRuns_merges_witness :
    (mergeRuns (readCell [3, 5, 8, 1, 2, 9] (fun _ => 0)) 6 0 3 6 [0, 0, 0, 0, 0, 0]
        = Loop.ok { iFirstBegin := 3, iSecondBegin := 6, iDest := 6,
                    dest := [1, 2, 3, 5, 8, 9] })
      ∧ ∃ s, mergeRuns (readCell [3, 5, 8, 1, 2, 9] (fun _ => 0)) 6 0 3 6 [0, 0, 0, 0, 0, 0]
            = Loop.ok s
          ∧ s.dest.length = 6
          ∧ (mergeRunsStores (readCell [3, 5, 8, 1, 2, 9] (fun _ => 0)) 6 0 3 6
              [0, 0, 0, 0, 0, 0]).map Prod.fst = List.Ico 0 6
          ∧ s.dest.take 0 = ([0, 0, 0, 0, 0, 0] : List Int).take 0
          ∧ s.dest.drop 6 = ([0, 0, 0, 0, 0, 0] : List Int).drop 6
          ∧ (s.dest.drop 0).take (6 - 0)
              = List.merge (seg (readCell [3, 5, 8, 1, 2, 9] (fun _ => 0)) 0 3)
                  (seg (readCell [3, 5, 8, 1, 2, 9] (fun _ => 0)) 3 6)
                  (fun x y => decide (x ≤ y))
          ∧ ((s.dest.drop 0).take (6 - 0)).Sorted (· ≤ ·)
          ∧ ((s.dest.drop 0).take (6 - 0)).Perm
              (seg (readCell [3, 5, 8, 1, 2, 9] (fun _ => 0)) 0 6) :=
  ⟨by decide,
    mergeRuns_merges (readCell [3, 5, 8, 1, 2, 9] (fun _ => 0)) 6 0 3 6 [0, 0, 0, 0, 0, 0]
      (by decide) (by decide) (by decide) (by decide) (by decide) (by decide)⟩

/-- C18: in the merge loop, when the current elements of the two runs compare equal the
element of the first run is stored and `iFirstBegin` advances (the second run waits);
so, for two non-decreasing runs, the source indices in the order in which the merge
section stores them (which is the order of `dest`, the stores going to consecutive
cells) are sorted by key, and of two elements with equal keys the one that comes first
in the source is stored first. -/
theorem merge_ties_prefer_first (source : Nat → Int) (n b₀ e₀ e₁ : Nat) (dest : List Int)
    (h₀₁ : b₀ ≤ e₀) (h₁₂ : e₀ ≤ e₁) (hb : b₀ ≤ n) (hlen : dest.length = n)
    (hr₁ : (seg source b₀ (min e₀ n)).Sorted (· ≤ ·))
    (hr₂ : (seg source e₀ (min e₁ n)).Sorted (· ≤ ·)) :
    (∀ (fuel : Nat) (s : MergeState), s.iFirstBegin < e₀ → s.iSecondBegin < e₁ →
        s.iFirstBegin < n → s.iSecondBegin < n → e₀ ≤ s.iSecondBegin →
        s.iDest < s.dest.length → source s.iFirstBegin = source s.iSecondBegin →
        mergeLoop source n e₀ e₁ (fuel + 1) s
            = mergeLoop source n e₀ e₁ fuel
                { s with dest := s.dest.set s.iDest (source s.iFirstBegin),
                         iFirstBegin := s.iFirstBegin + 1, iDest := s.iDest + 1 }
          ∧ mergeLoopStores source n e₀ e₁ (fuel + 1) s
            = (s.iDest, s.iFirstBegin) :: mergeLoopStores source n e₀ e₁ fuel
                { s with dest := s.dest.set s.iDest (source s.iFirstBegin),
                         iFirstBegin := s.iFirstBegin + 1, iDest := s.iDest + 1 })
      ∧ (mergeRunsStores source n b₀ e₀ e₁ dest).map Prod.fst = List.Ico b₀ (min e₁ n)
      ∧ ((mergeRunsStores source n b₀ e₀ e₁ dest).map Prod.snd).Pairwise
          (fun i j => source i ≤ source j ∧ (source i = source j → i < j)) := by
  refine ⟨?_, ?_, ?_⟩
  · intro fuel s c₁ c₂ c₃ c₄ c₅ c₆ heq
    have hc : s.iFirstBegin < e₀ ∧ s.iSecondBegin < e₁
        ∧ s.iFirstBegin < n ∧ s.iSecondBegin < n := ⟨c₁, c₂, c₃, c₄⟩
    have hassert : e₀ < n ∧ s.iSecondBegin < n := ⟨by omega, c₄⟩
    have hgt : ¬ source s.iFirstBegin > source s.iSecondBegin := by
      rw [heq]; exact lt_irrefl _
    constructor
    · rw [mergeLoop]
      simp only [if_pos hc, if_pos hassert, if_pos c₆, if_neg hgt]
    · rw [mergeLoopStores]
      simp only [if_pos hc, if_pos hassert, if_pos c₆, if_neg hgt]
  · obtain ⟨s, -, -, a₃, -, -⟩ := mergeRuns_trace source n b₀ e₀ e₁ dest h₀₁ h₁₂ hb hlen
    exact a₃
  · obtain ⟨s, -, -, -, a₄, -⟩ := mergeRuns_trace source n b₀ e₀ e₁ dest h₀₁ h₁₂ hb hlen
    rw [a₄]
    exact mergeRuns_stable_order source n b₀ e₀ e₁ hr₁ hr₂

/-- C18, witness: merging the runs `[1, 2, 2]` and `[1, 2, 3]` stores the source indices
in the order 0, 3, 1, 2, 4, 5: the two 2s of the first run go before the 2 of the second
run. -/
theorem merge_ties_prefer_first_witness :
    (mergeRunsStores (readCell [1, 2, 2, 1, 2, 3] (fun _ => 0)) 6 0 3 6
        [0, 0, 0, 0, 0, 0]).map Prod.snd = [0, 3, 1, 2, 4, 5]
      ∧ (mergeRunsStores (readCell [1, 2, 2, 1, 2, 3] (fun _ => 0)) 6 0 3 6
          [0, 0, 0, 0, 0, 0]).map Prod.fst = List.Ico 0 (min 6 6)
      ∧ ((mergeRunsStores (readCell [1, 2, 2, 1, 2, 3] (fun _ => 0)) 6 0 3 6
          [0, 0, 0, 0, 0, 0]).map Prod.snd).Pairwise
          (fun i j => readCell [1, 2, 2, 1, 2, 3] (fun _ => 0) i
              ≤ readCell [1, 2, 2, 1, 2, 3] (fun _ => 0) j
            ∧ (readCell [1, 2, 2, 1, 2, 3] (fun _ => 0) i
              = readCell [1, 2, 2, 1, 2, 3] (fun _ => 0) j → i < j)) :=
  ⟨by decide,
    (merge_ties_prefer_first (readCell [1, 2, 2, 1, 2, 3] (fun _ => 0)) 6 0 3 6
      [0, 0, 0, 0, 0, 0] (by decide) (by decide) (by decide) (by decide) (by decide)
      (by decide)).2⟩

/-! ## The stores of a full pass -/

theorem passLoop_trace (source : Nat → Int) (n : Nat) :
    ∀ (fuel b : Nat) (dest : List Int), dest.length = n → n + 1 ≤ b + fuel → 1 ≤ fuel →
      passLoop source n fuel b dest ≠ PassEnd.exit →
      ∃ out, passLoop source n fuel b dest = PassEnd.swapped out
        ∧ (passStores source n fuel b dest).map Prod.fst = List.Ico (min b n) n
        ∧ out = dest.take (min b n) ++ (passStores source n fuel b dest).map (fun p => source p.2)
        ∧ ((passStores source n fuel b dest).map Prod.snd).Perm (List.Ico (min b n) n) := by
  intro fuel
  induction fuel with
  | zero => intro b dest _ _ h; omega
  | succ k ih =>
    intro b dest hlen hf _ hne
    rw [passLoop] at hne ⊢
    rw [passStores]
    by_cases hb : b < n
    · obtain ⟨m₁, hm₁⟩ := scanLoop_ok source n (n + 2) b (by omega) (by omega)
      obtain ⟨a₁, a₂, -⟩ := scanLoop_spec source n _ _ _ hm₁
      obtain ⟨m₂, hm₂⟩ := scanLoop_ok source n (n + 2) (m₁ + 1) (by omega) (by omega)
      obtain ⟨c₁, -⟩ := scanLoop_spec source n _ _ _ hm₂
      simp only [if_pos hb, hm₁, hm₂] at hne ⊢
      by_cases hexit : b = 0 ∧ m₁ + 1 = n
      · simp only [if_pos hexit] at hne
        exact absurd rfl hne
      · obtain ⟨s, t₁, t₂, t₃, t₄, t₅⟩ :=
          mergeRuns_trace source n b (m₁ + 1) (m₂ + 1) dest (by omega) (by omega) (by omega) hlen
        simp only [if_neg hexit, t₁] at hne ⊢
        have hk : 1 ≤ k := by omega
        obtain ⟨out, r₁, r₂, r₃, r₄⟩ := ih (m₂ + 1) s.dest t₂ (by omega) hk hne
        have hmb : min b n = b := by omega
        have hXlen := stores_length _ (fun p => source p.2) _ _ t₃
        have htake : s.dest.take (min (m₂ + 1) n)
            = dest.take b ++ (mergeRunsStores source n b (m₁ + 1) (m₂ + 1) dest).map
                (fun p => source p.2) := by
          rw [t₅]
          apply List.take_left'
          rw [List.length_append, List.length_take, hXlen]
          omega
        refine ⟨out, r₁, ?_, ?_, ?_⟩
        · rw [List.map_append, t₃, r₂, hmb]
          exact List.Ico.append_consecutive (by omega) (by omega)
        · rw [r₃, htake, hmb, List.map_append, List.append_assoc]
        · rw [List.map_append, t₄, hmb]
          have hX : (List.merge (List.Ico b (min (m₁ + 1) n))
              (List.Ico (m₁ + 1) (min (m₂ + 1) n)) (keyLE source)).Perm
              (List.Ico b (min (m₂ + 1) n)) := by
            refine (List.merge_perm_append (keyLE source)).trans ?_
            by_cases hfm : m₁ + 1 ≤ n
            · rw [Nat.min_eq_left hfm, List.Ico.append_consecutive (by omega) (by omega)]
            · have e₁ : min (m₁ + 1) n = n := by omega
              have e₂ : min (m₂ + 1) n = n := by omega
              rw [e₁, e₂, List.Ico.eq_nil_of_le (show n ≤ m₁ + 1 by omega), List.append_nil]
          have := hX.append r₄
          rw [List.Ico.append_consecutive (by omega) (by omega)] at this
          exact this
    · simp only [if_neg hb]
      have hmb : min b n = n := by omega
      refine ⟨dest, rfl, by simp [hmb], ?_, by simp [hmb]⟩
      rw [hmb, ← hlen, List.take_length]
      simp

/-- C16: a full pass over a non-empty source that does not leave through the exit
condition ends with `iFirstBegin ≥ n`; its stores go to `dest[0], dest[1], ...,
dest[n - 1]` in this order, each index once; the source indices stored form a
permutation of `0 .. n - 1`, the destination holds the source values in the order
stored, and it is a permutation of the source. -/
theorem passLoop_writes_each_once (cells : List Int) (beyond : Nat → Int) (dest : List Int)
    (hn : 1 ≤ cells.length) (hlen : dest.length = cells.length)
    (hne : passLoop (readCell cells beyond) cells.length (cells.length + 1) 0 dest
      ≠ PassEnd.exit) :
    ∃ out, passLoop (readCell cells beyond) cells.length (cells.length + 1) 0 dest
        = PassEnd.swapped out
      ∧ (passStores (readCell cells beyond) cells.length (cells.length + 1) 0 dest).map
          Prod.fst = List.range cells.length
      ∧ ((passStores (readCell cells beyond) cells.length (cells.length + 1) 0 dest).map
          Prod.snd).Perm (List.range cells.length)
      ∧ out = (passStores (readCell cells beyond) cells.length (cells.length + 1) 0 dest).map
          (fun p => readCell cells beyond p.2)
      ∧ out.Perm cells := by
  obtain ⟨out, r₁, r₂, r₃, r₄⟩ := passLoop_trace (readCell cells beyond) cells.length
    (cells.length + 1) 0 dest hlen (by omega) (by omega) hne
  have hz : min 0 cells.length = 0 := by omega
  rw [hz, List.Ico.zero_bot] at r₂ r₄
  rw [hz, List.take_zero, List.nil_append] at r₃
  refine ⟨out, r₁, r₂, r₄, r₃, ?_⟩
  rw [r₃]
  have := r₄.map (readCell cells beyond)
  rw [List.map_map] at this
  refine this.trans ?_
  have e := seg_readCell cells beyond
  unfold seg at e
  rw [List.Ico.zero_bot] at e
  rw [e]

/-- C16, witness: the first pass over `[5, 3, 8, 1]` stores to the cells 0, 1, 2, 3 the
source cells 1, 0, 2, 3 and leaves `[3, 5, 8, 1]` in the destination. -/
theorem passLoop_writes_each_once_witness :
    passStores (readCell [5, 3, 8, 1] (fun _ => 0)) ([5, 3, 8, 1] : List Int).length
        (([5, 3, 8, 1] : List Int).length + 1) 0 [0, 0, 0, 0]
        = [(0, 1), (1, 0), (2, 2), (3, 3)]
      ∧ ∃ out, passLoop (readCell [5, 3, 8, 1] (fun _ => 0)) ([5, 3, 8, 1] : List Int).length
            (([5, 3, 8, 1] : List Int).length + 1) 0 [0, 0, 0, 0] = PassEnd.swapped out
          ∧ (passStores (readCell [5, 3, 8, 1] (fun _ => 0)) ([5, 3, 8, 1] : List Int).length
              (([5, 3, 8, 1] : List Int).length + 1) 0 [0, 0, 0, 0]).map Prod.fst
              = List.range ([5, 3, 8, 1] : List Int).length
          ∧ ((passStores (readCell [5, 3, 8, 1] (fun _ => 0)) ([5, 3, 8, 1] : List Int).length
              (([5, 3, 8, 1] : List Int).length + 1) 0 [0, 0, 0, 0]).map Prod.snd).Perm
              (List.range ([5, 3, 8, 1] : List Int).length)
          ∧ out = (passStores (readCell [5, 3, 8, 1] (fun _ => 0))
              ([5, 3, 8, 1] : List Int).length (([5, 3, 8, 1] : List Int).length + 1) 0
              [0, 0, 0, 0]).map (fun p => readCell [5, 3, 8, 1] (fun _ => 0) p.2)
          ∧ out.Perm [5, 3, 8, 1] :=
  ⟨by decide,
    passLoop_writes_each_once [5, 3, 8, 1] (fun _ => 0) [0, 0, 0, 0] (by decide) (by decide)
      (by decide)⟩

/-! ## The number of passes -/

theorem seg_sorted_of_steps (source : Nat → Int) (a e : Nat)
    (h : ∀ j, a ≤ j → j + 1 < e → source j ≤ source (j + 1)) :
    (seg source a e).Sorted (· ≤ ·) := by
  unfold List.Sorted
  rw [← List.chain'_iff_pairwise, List.chain'_iff_get]
  intro i hi
  have hlen : (seg source a e).length = e - a := seg_length source a e
  have e₁ : (seg source a e).get ⟨i, by omega⟩ = source (a + i) := by
    simp [seg, List.Ico]
  have e₂ : (seg source a e).get ⟨i + 1, by omega⟩ = source (a + i + 1) := by
    simp [seg, List.Ico, Nat.add_assoc]
  rw [e₁, e₂]
  exact h (a + i) (by omega) (by omega)

theorem runCount_cons_cons (x y : Int) (rest : List Int) :
    runCount (x :: y :: rest) = (if x > y then 1 else 0) + runCount (y :: rest) := rfl

theorem runCount_pos : ∀ (l : List Int), l ≠ [] → 1 ≤ runCount l := by
  intro l
  induction l with
  | nil => intro h; exact absurd rfl h
  | cons x xs ih =>
    intro _
    cases xs with
    | nil => simp [runCount]
    | cons y ys =>
      have := ih (by simp)
      simp only [runCount]
      omega

theorem runCount_sorted : ∀ (l : List Int), l.Sorted (· ≤ ·) → l ≠ [] → runCount l = 1 := by
  intro l
  induction l with
  | nil => intro _ h; exact absurd rfl h
  | cons x xs ih =>
    intro hs _
    cases xs with
    | nil => simp [runCount]
    | cons y ys =>
      have hxy : x ≤ y := List.rel_of_sorted_cons hs y (List.mem_cons_self _ _)
      have := ih hs.of_cons (by simp)
      simp only [runCount, gt_iff_lt, if_neg (not_lt.2 hxy)]
      omega

theorem runCount_append_le : ∀ (l r : List Int),
    runCount (l ++ r) ≤ runCount l + runCount r := by
  intro l
  induction l with
  | nil => intro r; simp [runCount]
  | cons x xs ih =>
    intro r
    cases xs with
    | nil =>
      cases r with
      | nil => simp [runCount]
      | cons y ys =>
        simp only [List.singleton_append, runCount]
        split <;> omega
    | cons y ys =>
      have := ih r
      rw [List.cons_append] at this
      rw [List.cons_append, List.cons_append, runCount_cons_cons, runCount_cons_cons]
      omega

theorem runCount_append_descent : ∀ (l : List Int) (a b : Int) (r : List Int), b < a →
    runCount (l ++ a :: b :: r) = runCount (l ++ [a]) + runCount (b :: r) := by
  intro l
  induction l with
  | nil =>
    intro a b r hab
    simp only [List.nil_append, runCount, gt_iff_lt, if_pos hab]
  | cons x xs ih =>
    intro a b r hab
    cases xs with
    | nil =>
      have := ih a b r hab
      simp only [List.nil_append, List.cons_append, runCount] at this ⊢
      omega
    | cons y ys =>
      have := ih a b r hab
      rw [List.cons_append, List.cons_append] at this
      rw [List.cons_append, List.cons_append, List.cons_append, List.cons_append,
        runCount_cons_cons, runCount_cons_cons]
      omega

theorem runCount_seg_split (source : Nat → Int) (a m e : Nat) (ham : a ≤ m) (hme : m + 1 < e)
    (hdesc : source (m + 1) < source m) :
    1 + runCount (seg source (m + 1) e) ≤ runCount (seg source a e) := by
  have e₁ : seg source a e = seg source a m ++ source m :: source (m + 1)
      :: seg source (m + 2) e := by
    rw [← seg_append source ham (by omega : m ≤ e)]
    congr 1
    unfold seg
    rw [List.Ico.eq_cons (by omega : m < e), List.Ico.eq_cons (by omega : m + 1 < e)]
    rfl
  have e₂ : seg source (m + 1) e = source (m + 1) :: seg source (m + 2) e := by
    unfold seg
    rw [List.Ico.eq_cons (by omega : m + 1 < e)]
    rfl
  rw [e₁, e₂, runCount_append_descent _ _ _ _ hdesc]
  have := runCount_pos (seg source a m ++ [source m]) (by simp)
  omega

theorem passLoop_runs (source : Nat → Int) (n : Nat) :
    ∀ (fuel b : Nat) (dest out : List Int), dest.length = n → n + 1 ≤ b + fuel → 1 ≤ fuel →
      passLoop source n fuel b dest = PassEnd.swapped out →
      out.length = n ∧ out.take (min b n) = dest.take (min b n)
        ∧ runCount (out.drop (min b n)) ≤ (runCount (seg source (min b n) n) + 1) / 2 := by
  intro fuel
  induction fuel with
  | zero => intro b dest out _ _ h; omega
  | succ k ih =>
    intro b dest out hlen hf _ h
    rw [passLoop] at h
    by_cases hb : b < n
    · obtain ⟨m₁, hm₁⟩ := scanLoop_ok source n (n + 2) b (by omega) (by omega)
      obtain ⟨a₁, a₂, a₃, a₄⟩ := scanLoop_spec source n _ _ _ hm₁
      obtain ⟨m₂, hm₂⟩ := scanLoop_ok source n (n + 2) (m₁ + 1) (by omega) (by omega)
      obtain ⟨c₁, c₂, c₃, c₄⟩ := scanLoop_spec source n _ _ _ hm₂
      simp only [if_pos hb, hm₁, hm₂] at h
      by_cases hexit : b = 0 ∧ m₁ + 1 = n
      · simp only [if_pos hexit] at h
        cases h
      · obtain ⟨s, t₁, t₂, t₃, t₄, t₅⟩ :=
          mergeRuns_trace source n b (m₁ + 1) (m₂ + 1) dest (by omega) (by omega) (by omega) hlen
        simp only [if_neg hexit, t₁] at h
        obtain ⟨r₁, r₂, r₃⟩ := ih (m₂ + 1) s.dest out t₂ (by omega) (by omega) h
        have hmb : min b n = b := by omega
        have hXlen := stores_length _ (fun p => source p.2) _ _ t₃
        have hXsorted : ((mergeRunsStores source n b (m₁ + 1) (m₂ + 1) dest).map
            (fun p => source p.2)).Sorted (· ≤ ·) := by
          have hmid : (mergeRunsStores source n b (m₁ + 1) (m₂ + 1) dest).map
              (fun p => source p.2)
              = ((mergeRunsStores source n b (m₁ + 1) (m₂ + 1) dest).map Prod.snd).map
                  source := by
            rw [List.map_map]; rfl
          rw [hmid, t₄]
          unfold List.Sorted
          rw [List.pairwise_map]
          refine (mergeRuns_stable_order source n b (m₁ + 1) (m₂ + 1) ?_ ?_).imp (fun h => h.1)
          · exact seg_sorted_of_steps source _ _
              (fun j hj hje => (a₃ j hj (by omega)).1)
          · exact seg_sorted_of_steps source _ _
              (fun j hj hje => (c₃ j hj (by omega)).1)
        have hXne : (mergeRunsStores source n b (m₁ + 1) (m₂ + 1) dest).map
            (fun p => source p.2) ≠ [] := by
          intro hnil
          rw [hnil] at hXlen
          simp only [List.length_nil] at hXlen
          omega
        have htb : (dest.take b).length = b := by rw [List.length_take]; omega
        have hpre : (dest.take b ++ (mergeRunsStores source n b (m₁ + 1) (m₂ + 1) dest).map
            (fun p => source p.2)).length = min (m₂ + 1) n := by
          rw [List.length_append, htb, hXlen]; omega
        have htake : s.dest.take (min (m₂ + 1) n)
            = dest.take b ++ (mergeRunsStores source n b (m₁ + 1) (m₂ + 1) dest).map
                (fun p => source p.2) := by
          rw [t₅]
          exact List.take_left' hpre
        have hout : out = dest.take b
            ++ ((mergeRunsStores source n b (m₁ + 1) (m₂ + 1) dest).map (fun p => source p.2)
            ++ out.drop (min (m₂ + 1) n)) := by
          rw [← List.append_assoc, ← htake, ← r₂, List.take_append_drop]
        have hdrop : out.drop b
            = (mergeRunsStores source n b (m₁ + 1) (m₂ + 1) dest).map (fun p => source p.2)
              ++ out.drop (min (m₂ + 1) n) := by
          conv_lhs => rw [hout]
          exact List.drop_left' htb
        refine ⟨r₁, ?_, ?_⟩
        · rw [hmb]
          conv_lhs => rw [hout]
          exact List.take_left' htb
        · rw [hmb, hdrop]
          have hle := runCount_append_le
            ((mergeRunsStores source n b (m₁ + 1) (m₂ + 1) dest).map (fun p => source p.2))
            (out.drop (min (m₂ + 1) n))
          rw [runCount_sorted _ hXsorted hXne] at hle
          by_cases hsm : m₂ + 1 < n
          · have hd₁ : source (m₁ + 1) < source m₁ := by
              rcases a₄ with hd | hd
              · exact hd
              · omega
            have hd₂ : source (m₂ + 1) < source m₂ := by
              rcases c₄ with hd | hd
              · exact hd
              · omega
            have s₁ := runCount_seg_split source b m₁ n a₁ (by omega) hd₁
            have s₂ := runCount_seg_split source (m₁ + 1) m₂ n c₁ hsm hd₂
            have hmin : min (m₂ + 1) n = m₂ + 1 := by omega
            rw [hmin] at r₃ hle ⊢
            omega
          · have hmin : min (m₂ + 1) n = n := by omega
            have hnil : out.drop (min (m₂ + 1) n) = [] := by
              rw [hmin]
              exact List.drop_eq_nil_of_le (by omega)
            rw [hnil] at hle ⊢
            have hpos := runCount_pos (seg source b n) (by
              intro hnil'
              have := seg_length source b n
              rw [hnil'] at this
              simp only [List.length_nil] at this
              omega)
            simp only [runCount] at hle
            omega
    · simp only [if_neg hb] at h
      cases h
      have hmb : min b n = n := by omega
      refine ⟨hlen, rfl, ?_⟩
      rw [hmb, List.drop_eq_nil_of_le (by omega)]
      simp [runCount]

theorem passLoop_halves_runs (cells : List Int) (beyond : Nat → Int) (dest out : List Int)
    (hlen : dest.length = cells.length)
    (h : passLoop (readCell cells beyond) cells.length (cells.length + 1) 0 dest
      = PassEnd.swapped out) :
    runCount out ≤ (runCount cells + 1) / 2 := by
  obtain ⟨-, -, r₃⟩ := passLoop_runs (readCell cells beyond) cells.length
    (cells.length + 1) 0 dest out hlen (by omega) (by omega) h
  have hz : min 0 cells.length = 0 := by omega
  rw [hz, List.drop_zero, seg_readCell] at r₃
  exact r₃

/-- C14, divergence: `[4, 3, 2, 1]` holds 4 runs and `⌈log₂ 4⌉ = 2`, yet when the cell
stored after the array is 5 the call makes three full passes through the merge section
before it returns: after two passes the caller's array is sorted, but the scan compares
its last element with the cell past the end, the exit condition fails, and a third pass
copies the single run into the working buffer, from where the fourth pass leaves. -/
theorem sortMerge_extra_pass :
    runCount [4, 3, 2, 1] = 4
      ∧ Nat.clog 2 4 = 2
      ∧ afterPasses 4 (fun _ => 5) (fun _ => 0) 2 [4, 3, 2, 1] [0, 0, 0, 0] false
          = some ([1, 2, 3, 4], [3, 4, 1, 2], false)
      ∧ afterPasses 4 (fun _ => 5) (fun _ => 0) 3 [4, 3, 2, 1] [0, 0, 0, 0] false
          = some ([1, 2, 3, 4], [1, 2, 3, 4], true)
      ∧ passStores (readCell [1, 2, 3, 4] (fun _ => 5)) 4 5 0 [3, 4, 1, 2]
          = [(0, 0), (1, 1), (2, 2), (3, 3)]
      ∧ sortMerge 3 (some fun _ => 0) [4, 3, 2, 1] (fun _ => 5) = Outcome.running
      ∧ sortMerge 4 (some fun _ => 0) [4, 3, 2, 1] (fun _ => 5)
          = Outcome.returned [1, 2, 3, 4] := by
  refine ⟨by decide, ?_, by decide, by decide, by decide, by decide, by decide⟩
  exact Nat.clog_pow 2 2 (by decide)

/-! ## The frame of a chunk -/

theorem passStores_lt (source : Nat → Int) (n : Nat) :
    ∀ (fuel b : Nat) (dest : List Int), dest.length = n →
      ∀ p ∈ passStores source n fuel b dest, p.1 < n := by
  intro fuel
  induction fuel with
  | zero => intro b dest _ p hp; simp [passStores] at hp
  | succ k ih =>
    intro b dest hlen p hp
    rw [passStores] at hp
    by_cases hb : b < n
    · obtain ⟨m₁, hm₁⟩ := scanLoop_ok source n (n + 2) b (by omega) (by omega)
      obtain ⟨a₁, a₂, -⟩ := scanLoop_spec source n _ _ _ hm₁
      obtain ⟨m₂, hm₂⟩ := scanLoop_ok source n (n + 2) (m₁ + 1) (by omega) (by omega)
      obtain ⟨c₁, -⟩ := scanLoop_spec source n _ _ _ hm₂
      simp only [if_pos hb, hm₁, hm₂] at hp
      by_cases hexit : b = 0 ∧ m₁ + 1 = n
      · simp only [if_pos hexit, List.not_mem_nil] at hp
      · obtain ⟨s, t₁, t₂, t₃, -, -⟩ :=
          mergeRuns_trace source n b (m₁ + 1) (m₂ + 1) dest (by omega) (by omega) (by omega) hlen
        simp only [if_neg hexit, t₁, List.mem_append] at hp
        rcases hp with hp | hp
        · have hmem : p.1 ∈ (mergeRunsStores source n b (m₁ + 1) (m₂ + 1) dest).map Prod.fst :=
            List.mem_map_of_mem _ hp
          rw [t₃, List.Ico.mem] at hmem
          omega
        · exact ih _ _ t₂ p hp
    · simp only [if_neg hb, List.not_mem_nil] at hp

/-- C17: a call `sortMerge(toSort + offset, len)` on a chunk inside the backing array
never stores outside the `len` cells it was given: no run stops on a store outside the
destination (nor on an assertion), and every store logged in a pass over `len` cells has
its destination index below `len`; when the call returns, the backing array has its
length and every cell before `offset` and from `offset + len` on is unchanged, whatever
lies past the chunk and past the working buffer. -/
theorem sortChunk_frame (fuel : Nat) (heap : Option (Nat → Int)) (toSort : List Int)
    (beyond : Nat → Int) (offset len : Nat) (hfit : offset + len ≤ toSort.length) :
    (∀ why, sortChunk fuel heap toSort beyond offset len ≠ Outcome.stopped why)
      ∧ (∀ (source : Nat → Int) (dest : List Int) (passFuel b : Nat), dest.length = len →
          ∀ p ∈ passStores source len passFuel b dest, p.1 < len)
      ∧ ∀ sub, sortChunk fuel heap toSort beyond offset len = Outcome.returned sub →
          sub.length = toSort.length
            ∧ (∀ i, i < offset ∨ offset + len ≤ i → sub.get? i = toSort.get? i)
            ∧ ((sub.drop offset).take len).Perm ((toSort.drop offset).take len) := by
  refine ⟨fun why => sortChunk_no_stop _ _ _ _ _ _ why,
    fun source dest passFuel b hd => passStores_lt source len passFuel b dest hd, ?_⟩
  intro sub h
  unfold sortChunk at h
  split at h
  · rename_i chunk hc
    cases h
    have hp := (sortMerge_returned _ _ _ _ _ hc).2
    have hl : chunk.length = len := by
      rw [hp.length_eq, List.length_take, List.length_drop]
      omega
    have hto : (toSort.take offset).length = offset := by
      rw [List.length_take]; omega
    refine ⟨?_, ?_, ?_⟩
    · simp only [List.length_append, List.length_take, List.length_drop, hl]
      omega
    · intro i hi
      simp only [List.get?_eq_getElem?]
      rcases hi with hi | hi
      · rw [List.append_assoc, List.getElem?_append_left (by omega), List.getElem?_take_of_lt hi]
      · rw [List.getElem?_append_right (by simp only [List.length_append, hto, hl]; omega)]
        simp only [List.length_append, hto, hl, List.getElem?_drop]
        congr 1
        omega
    · rw [List.append_assoc, List.drop_left' hto, List.take_left' hl]
      exact hp
  · cases h
  · cases h
  · cases h

/-- C17, witness: the first piece of `[5, 3, 8, 1, 9, 2]` cut in two is sorted in place,
the cells of the second piece keep their values. -/
theorem sortChunk_frame_witness :
    (0 + 3 ≤ ([5, 3, 8, 1, 9, 2] : List Int).length)
      ∧ sortChunk 3 (some fun _ => 0) [5, 3, 8, 1, 9, 2] (fun _ => 0) 0 3
          = Outcome.returned [3, 5, 8, 1, 9, 2]
      ∧ ∀ sub, sortChunk 3 (some fun _ => 0) [5, 3, 8, 1, 9, 2] (fun _ => 0) 0 3
            = Outcome.returned sub →
          sub.length = ([5, 3, 8, 1, 9, 2] : List Int).length
            ∧ (∀ i, i < 0 ∨ 0 + 3 ≤ i → sub.get? i = ([5, 3, 8, 1, 9, 2] : List Int).get? i)
            ∧ ((sub.drop 0).take 3).Perm ((([5, 3, 8, 1, 9, 2] : List Int).drop 0).take 3) :=
  ⟨by decide, by decide,
    (sortChunk_frame 3 (some fun _ => 0) [5, 3, 8, 1, 9, 2] (fun _ => 0) 0 3
      (by decide)).2.2⟩

end ThreadedMerge
